import Mathlib

/-!
Verification of the Dijkstra shortest-path engine and the grid-maze domain model
of the rust-algorithms repository (src/graphs_mazes.rs), against its
natural-language specification.

The Rust HashMap-based state is embedded as association lists: lookup returns
the first matching pair, insert replaces a present key in place and otherwise
appends (so the list order is the earliest-inserted iteration order that the
specification describes for the frontier scan), and remove drops the key.
Machine integers are modelled as Nat with explicit bounds where overflow could
matter; the generic weight type is modelled as Int, so that non-negativity of
weights is a genuine hypothesis rather than a property of the carrier type.
The while-loop of solve_dijkstra is given an explicit fuel argument standing
for its termination, which holds on every finite graph; a none result means
the fuel did not cover the run.
-/

set_option maxHeartbeats 1000000
set_option maxRecDepth 2000
set_option linter.unusedSectionVars false

namespace RustAlgo

variable {S A : Type} [DecidableEq S]

/-- Association-list lookup, mirroring HashMap.get: value of the first pair
whose key matches. -/
def alookup : List (S × A) → S → Option A
  | [], _ => none
  | (k, v) :: rest, key => if key = k then some v else alookup rest key

/-- Association-list insert, mirroring HashMap.insert: replaces the value in
place when the key is present, otherwise appends the new pair at the end. -/
def ainsert : List (S × A) → S → A → List (S × A)
  | [], key, val => [(key, val)]
  | (k, v) :: rest, key, val =>
      if k = key then (key, val) :: rest else (k, v) :: ainsert rest key val

/-- Association-list removal, mirroring HashMap.remove. -/
def aremove : List (S × A) → S → List (S × A)
  | [], _ => []
  | (k, v) :: rest, key =>
      if k = key then aremove rest key else (k, v) :: aremove rest key

/-- Keys of an association list, in list order. -/
def keysOf (l : List (S × A)) : List S :=
  l.map Prod.fst

/-- Running fold of the frontier minimum scan: starting from the running
minimum cur, it replaces cur only when a strictly smaller value appears. -/
def fmAux (cur : S × Int) : List (S × Int) → S × Int
  | [] => cur
  | kv :: rest => if kv.2 < cur.2 then fmAux kv rest else fmAux cur rest

/-- Minimum scan translated from find_min_key_value_pair: the entries are
scanned in iteration order and the running minimum is replaced only on a
strictly smaller value, so the first entry attaining the minimum is kept.
The Rust original unwraps on an empty map; that case is modelled by none. -/
def find_min_key_value_pair : List (S × Int) → Option (S × Int)
  | [] => none
  | kv :: rest => some (fmAux kv rest)

/-- Neighbor pass translated from the inner for-loop of solve_dijkstra:
already-processed neighbors are skipped; a strictly better candidate distance
updates the frontier entry and the predecessor; an absent neighbor is inserted
with its candidate distance and predecessor. -/
def relax_neighbors (vertex : S) (distance : Int) (processed : List (S × Int)) :
    List (S × Int) → List (S × Int) → List (S × S) →
      List (S × Int) × List (S × S)
  | [], current, predecessors => (current, predecessors)
  | (neighbor, ndist) :: rest, current, predecessors =>
      if (alookup processed neighbor).isSome then
        relax_neighbors vertex distance processed rest current predecessors
      else
        match alookup current neighbor with
        | some current_dist =>
            if distance + ndist < current_dist then
              relax_neighbors vertex distance processed rest
                (ainsert current neighbor (distance + ndist))
                (ainsert predecessors neighbor vertex)
            else
              relax_neighbors vertex distance processed rest current predecessors
        | none =>
            relax_neighbors vertex distance processed rest
              (ainsert current neighbor (distance + ndist))
              (ainsert predecessors neighbor vertex)

/-- Main loop of solve_dijkstra: extract the frontier minimum, move it to the
processed map, stop with it when it is a target, otherwise relax its
neighbors and continue. -/
def dijkstra_loop (g : S → List (S × Int)) (end_vertices : List S) :
    Nat → List (S × Int) → List (S × Int) → List (S × S) →
      Option (List (S × Int) × List (S × S) × Option S)
  | 0, _, _, _ => none
  | fuel + 1, current, processed, predecessors =>
      match find_min_key_value_pair current with
      | none => some (processed, predecessors, none)
      | some (vertex, distance) =>
          let current2 := aremove current vertex
          let processed2 := ainsert processed vertex distance
          if vertex ∈ end_vertices then
            some (processed2, predecessors, some vertex)
          else
            let relaxed :=
              relax_neighbors vertex distance processed2 (g vertex)
                current2 predecessors
            dijkstra_loop g end_vertices fuel relaxed.1 processed2 relaxed.2

/-- Frontier seeding of solve_dijkstra: every start vertex at distance zero. -/
def seed_starts (start_vertices : List S) : List (S × Int) :=
  start_vertices.foldl (fun current v => ainsert current v 0) []

/-- Dijkstra solver translated from solve_dijkstra. The graph is the
list_neighbors_and_distances capability of the Neighbors trait. -/
def solve_dijkstra (g : S → List (S × Int))
    (start_vertices end_vertices : List S) (fuel : Nat) :
    Option (List (S × Int) × List (S × S) × Option S) :=
  dijkstra_loop g end_vertices fuel (seed_starts start_vertices) [] []

/-- Variant of the main loop in which the unspecified iteration order of the
frontier hash map is explicit: at each step the entry list is reshuffled by the
order oracle before the minimum scan. The oracle that keeps the list unchanged
reproduces solve_dijkstra. -/
def dijkstra_loopWith (reorder : Nat → List (S × Int) → List (S × Int))
    (g : S → List (S × Int)) (end_vertices : List S) :
    Nat → Nat → List (S × Int) → List (S × Int) → List (S × S) →
      Option (List (S × Int) × List (S × S) × Option S)
  | 0, _, _, _, _ => none
  | fuel + 1, step, current0, processed, predecessors =>
      let current := reorder step current0
      match find_min_key_value_pair current with
      | none => some (processed, predecessors, none)
      | some (vertex, distance) =>
          let current2 := aremove current vertex
          let processed2 := ainsert processed vertex distance
          if vertex ∈ end_vertices then
            some (processed2, predecessors, some vertex)
          else
            let relaxed :=
              relax_neighbors vertex distance processed2 (g vertex)
                current2 predecessors
            dijkstra_loopWith reorder g end_vertices fuel (step + 1)
              relaxed.1 processed2 relaxed.2

/-- Dijkstra solver with an explicit frontier iteration-order oracle. -/
def solve_dijkstraWith (reorder : Nat → List (S × Int) → List (S × Int))
    (g : S → List (S × Int)) (start_vertices end_vertices : List S)
    (fuel : Nat) : Option (List (S × Int) × List (S × S) × Option S) :=
  dijkstra_loopWith reorder g end_vertices fuel 0 (seed_starts start_vertices)
    [] []

/-- Edge-list path predicate: IsPath g u p v states that p is a list of
(vertex, weight) steps leading from u to v, each step along an edge of g. -/
inductive IsPath (g : S → List (S × Int)) : S → List (S × Int) → S → Prop
  | nil (u : S) : IsPath g u [] u
  | cons {u v t : S} {w : Int} {rest : List (S × Int)} :
      (v, w) ∈ g u → IsPath g v rest t → IsPath g u ((v, w) :: rest) t

/-- Total weight of an edge-list path. -/
def pathCost (p : List (S × Int)) : Int :=
  (p.map Prod.snd).sum

/-- Every edge weight produced by the graph is non-negative. -/
def NonNegWeights (g : S → List (S × Int)) : Prop :=
  ∀ u v w, (v, w) ∈ g u → 0 ≤ w

/-- True shortest-path distance d from the nearest start vertex to v: some
path from a start vertex reaches v with cost d, and no path from any start
vertex reaches v more cheaply. -/
def ShortestFrom (g : S → List (S × Int)) (starts : List S) (v : S)
    (d : Int) : Prop :=
  (∃ s ∈ starts, ∃ p, IsPath g s p v ∧ pathCost p = d) ∧
    ∀ s ∈ starts, ∀ p, IsPath g s p v → d ≤ pathCost p

/-- Finite predecessor chain: following the predecessor map from x stays
inside dom and ends at a start vertex that has no predecessor entry. -/
inductive PredChain (predecessors : List (S × S)) (starts dom : List S) :
    S → Prop
  | base {x : S} : x ∈ dom → alookup predecessors x = none → x ∈ starts →
      PredChain predecessors starts dom x
  | step {x v : S} : x ∈ dom → alookup predecessors x = some v →
      PredChain predecessors starts dom v → PredChain predecessors starts dom x

/-- Maze record translated from the Rust struct; strings are modelled as
lists of characters. -/
structure Maze where
  layout : List (List Char)
  height : Nat
  width : Nat
  start_positions : List Nat
  end_positions : List Nat
  start_char : Char
  end_char : Char
deriving DecidableEq

namespace Maze

/-- Position unpacking translated from position_to_coordinates: the high
32 bits are the row, the low 32 bits the column. -/
def position_to_coordinates (pos : Nat) : Nat × Nat :=
  (pos / 2 ^ 32, pos &&& (2 ^ 32 - 1))

/-- Position packing translated from coordinates_to_position. For row and
column below 2 ^ 32 the u64 arithmetic of the source cannot overflow, so the
plain Nat expression is exact. -/
def coordinates_to_position (height width : Nat) : Nat :=
  height * 2 ^ 32 + width

/-- Character of the grid cell at row r, column c, used only where the
access is in range (the neighbor query checks the grid bounds before
reading, and a successfully constructed maze has exactly width characters
in every row); the out-of-range default is the null character. -/
def charAt (layout : List (List Char)) (r c : Nat) : Char :=
  (layout.getD r []).getD c (Char.ofNat 0)

/-- Byte length of a line under UTF-8, as String::len returns it in the
source: every character contributes its UTF-8 size. -/
def utf8Len (line : List Char) : Nat :=
  (line.map Char.utf8Size).sum

/-- Column scan of one row, translated from the inner loop of
find_character_in_layout: the source indexes the collected character vector
of the row at every listed column, so a column at or beyond the row's
character count is an index panic, modelled as none. -/
def scan_row (row : List Char) (y : Nat) (char_to_find : Char) :
    List Nat → Option (List Nat)
  | [] => some []
  | x :: xs =>
      match row[x]? with
      | none => none
      | some c =>
          match scan_row row y char_to_find xs with
          | none => none
          | some rest =>
              if c = char_to_find then
                some (coordinates_to_position y x :: rest)
              else some rest

/-- Row walk of find_character_in_layout: each listed row is scanned over
the columns 0 to width - 1; any index panic of a row scan aborts the whole
walk. -/
def scan_rows (layout : List (List Char)) (width : Nat)
    (char_to_find : Char) : List Nat → Option (List Nat)
  | [] => some []
  | y :: ys =>
      match scan_row (layout.getD y []) y char_to_find
          (List.range width) with
      | none => none
      | some ps =>
          match scan_rows layout width char_to_find ys with
          | none => none
          | some rest => some (ps ++ rest)

/-- Scan translated from find_character_in_layout: a row-major walk over the
grid recording the packed position of every cell equal to the sought
character. The width is the byte-length width computed by the caller, while
every row is indexed by characters, so a row with fewer characters than
width makes the source panic, modelled as none. -/
def find_character_in_layout (layout : List (List Char)) (width height : Nat)
    (char_to_find : Char) : Option (List Nat) :=
  scan_rows layout width char_to_find (List.range height)

/-- Constructor translated from Maze::new, the panics of the source modelled
as a none result: the length assertions compare UTF-8 byte lengths, as
String::len does, the width is the first line's byte length, and the marker
scans index every row by characters up to that width, so a row with fewer
characters than the width is an index panic. -/
def new (layout : List (List Char)) : Option Maze :=
  match layout with
  | [] => none
  | first :: rest =>
      if (rest.all fun line => utf8Len line = utf8Len first) then
        match
          find_character_in_layout (first :: rest) (utf8Len first)
            (first :: rest).length '@',
          find_character_in_layout (first :: rest) (utf8Len first)
            (first :: rest).length '$' with
        | some sp, some ep =>
            some
              { layout := first :: rest
                height := (first :: rest).length
                width := utf8Len first
                start_positions := sp
                end_positions := ep
                start_char := '@'
                end_char := '$' }
        | _, _ => none
      else none

/-- Neighbor query translated from the Neighbors implementation for Maze: the
four axis-aligned candidates at distance 1, filtered by the grid bounds and by
the passable characters (blank, start marker, end marker). -/
def list_neighbors_and_distances (m : Maze) (pos : Nat) : List (Nat × Int) :=
  let hw := position_to_coordinates pos
  let possible_neighbors : List (Nat × Int) :=
    (if 0 < hw.1 then [(coordinates_to_position (hw.1 - 1) hw.2, 1)] else [])
      ++ [(coordinates_to_position (hw.1 + 1) hw.2, 1)]
      ++ (if 0 < hw.2 then [(coordinates_to_position hw.1 (hw.2 - 1), 1)]
          else [])
      ++ [(coordinates_to_position hw.1 (hw.2 + 1), 1)]
  possible_neighbors.filter fun nd =>
    decide ((position_to_coordinates nd.1).1 < m.height) &&
      decide ((position_to_coordinates nd.1).2 < m.width) &&
      [' ', m.start_char, m.end_char].contains
        (charAt m.layout (position_to_coordinates nd.1).1
          (position_to_coordinates nd.1).2)

end Maze

/-- Two-edge example graph used as a concrete input: vertex 0 has the
neighbors 1 and 2, both at distance 1. -/
def exGraph : Nat → List (Nat × Int)
  | 0 => [(1, 1), (2, 1)]
  | _ => []

/-- The example graph with the neighbor list of vertex 0 in the opposite
order; all other vertices are unchanged. -/
def exGraphSwapped : Nat → List (Nat × Int)
  | 0 => [(2, 1), (1, 1)]
  | _ => []

/-- Line example graph: edges 0 to 1 and 1 to 2, each at distance 1. -/
def exLine : Nat → List (Nat × Int)
  | 0 => [(1, 1)]
  | 1 => [(2, 1)]
  | _ => []

/-- Minimum candidate distance offered to the key k by one relaxation pass
over the neighbor list ns from a vertex settled at distance d; none when ns
offers nothing to k. -/
def offerMin (d : Int) : List (S × Int) → S → Option Int
  | [], _ => none
  | (n, w) :: rest, k =>
      if n = k then
        match offerMin d rest k with
        | none => some (d + w)
        | some m => some (min (d + w) m)
      else offerMin d rest k

/-- Structural loop invariant of solve_dijkstra, independent of any
assumption on the edge weights: the key lists are duplicate free, the
frontier and the settled map are disjoint, no settled vertex is a target
while the loop is still running, and predecessor values are settled
vertices. -/
structure DijkstraInvLite (targets : List S)
    (current processed : List (S × Int)) (predecessors : List (S × S)) :
    Prop where
  nodup_cur : (keysOf current).Nodup
  nodup_proc : (keysOf processed).Nodup
  disj : ∀ k, k ∈ keysOf processed → k ∉ keysOf current
  proc_no_target : ∀ k ∈ keysOf processed, k ∉ targets
  pred_proc : ∀ x v, alookup predecessors x = some v → v ∈ keysOf processed

/-- Full loop invariant of solve_dijkstra under non-negative weights,
relating the frontier (current), the settled map (processed) and the
predecessor map at the head of each loop iteration. -/
structure DijkstraInv (g : S → List (S × Int)) (starts targets : List S)
    (current processed : List (S × Int)) (predecessors : List (S × S))
    extends DijkstraInvLite targets current processed predecessors :
    Prop where
  proc_shortest : ∀ v d, (v, d) ∈ processed → ShortestFrom g starts v d
  cur_reach : ∀ v d, alookup current v = some d →
    ∃ s ∈ starts, ∃ p, IsPath g s p v ∧ pathCost p = d
  starts_cover : ∀ s ∈ starts, s ∈ keysOf processed ∨
    ∃ cs, alookup current s = some cs ∧ cs ≤ 0
  relax_closed : ∀ u du, (u, du) ∈ processed → ∀ v w, (v, w) ∈ g u →
    v ∈ keysOf processed ∨ ∃ cv, alookup current v = some cv ∧ cv ≤ du + w
  pred_cover : ∀ x ∈ keysOf current, x ∈ starts ∨ x ∈ keysOf predecessors
  no_start_pred : ∀ s ∈ starts, s ∉ keysOf predecessors
  proc_chain : ∀ x ∈ keysOf processed,
    PredChain predecessors starts (keysOf processed) x

/-- Facts about a completed run of the solver used by the shortest-distance
and predecessor-chain claims. -/
structure DijkstraPost (g : S → List (S × Int)) (starts : List S)
    (dist : List (S × Int)) (predecessors : List (S × S)) : Prop where
  nodup : (keysOf dist).Nodup
  shortest : ∀ v d, (v, d) ∈ dist → ShortestFrom g starts v d
  no_start_pred : ∀ s ∈ starts, s ∉ keysOf predecessors
  chain : ∀ x ∈ keysOf dist, PredChain predecessors starts (keysOf dist) x

/-! Lemmas about the association-list primitives. -/

theorem alookup_eq_none {A : Type} {l : List (S × A)} {k : S} :
    alookup l k = none ↔ k ∉ keysOf l := by
  induction l with
  | nil => simp [alookup, keysOf]
  | cons p rest ih =>
      obtain ⟨pk, pv⟩ := p
      by_cases h : k = pk
      · subst h
        simp [alookup, keysOf]
      · simpa [alookup, h, keysOf] using ih

theorem alookup_isSome_iff {A : Type} {l : List (S × A)} {k : S} :
    (alookup l k).isSome ↔ k ∈ keysOf l := by
  rcases h : alookup l k with _ | v
  · simpa using alookup_eq_none.mp h
  · simp only [Option.isSome_some, true_iff]
    by_contra hk
    rw [alookup_eq_none.mpr hk] at h
    exact Option.noConfusion h

theorem alookup_mem {A : Type} {l : List (S × A)} {k : S} {v : A}
    (h : alookup l k = some v) : (k, v) ∈ l := by
  induction l with
  | nil => exact absurd h (by simp [alookup])
  | cons p rest ih =>
      obtain ⟨pk, pv⟩ := p
      by_cases hk : k = pk
      · subst hk
        have hv : pv = v := by simpa [alookup] using h
        subst hv
        exact List.mem_cons_self _ _
      · simp only [alookup, if_neg hk] at h
        exact List.mem_cons_of_mem _ (ih h)

theorem mem_keysOf {A : Type} {l : List (S × A)} {k : S} {v : A}
    (h : (k, v) ∈ l) : k ∈ keysOf l :=
  List.mem_map.mpr ⟨(k, v), h, rfl⟩

theorem mem_alookup {A : Type} {l : List (S × A)} {k : S} {v : A}
    (hnd : (keysOf l).Nodup) (h : (k, v) ∈ l) : alookup l k = some v := by
  induction l with
  | nil => cases h
  | cons p rest ih =>
      obtain ⟨pk, pv⟩ := p
      rcases List.mem_cons.mp h with heq | hmem
      · cases heq
        simp [alookup]
      · have hk : k ≠ pk := by
          rintro rfl
          exact (List.nodup_cons.mp hnd).1 (mem_keysOf hmem)
        simp only [alookup, if_neg hk]
        exact ih (List.nodup_cons.mp hnd).2 hmem

theorem alookup_ainsert {A : Type} (l : List (S × A)) (k : S) (v : A)
    (q : S) :
    alookup (ainsert l k v) q = if q = k then some v else alookup l q := by
  induction l with
  | nil => simp [ainsert, alookup]
  | cons p rest ih =>
      obtain ⟨pk, pv⟩ := p
      by_cases hpk : pk = k
      · subst hpk
        by_cases hq : q = pk <;> simp [ainsert, alookup, hq]
      · by_cases hq : q = pk
        · subst hq
          simp [ainsert, hpk, alookup, Ne.symm hpk]
        · simp [ainsert, hpk, alookup, hq, ih]

theorem mem_keysOf_ainsert {A : Type} {l : List (S × A)} {k : S} {v : A}
    {q : S} : q ∈ keysOf (ainsert l k v) ↔ q ∈ keysOf l ∨ q = k := by
  rw [← alookup_isSome_iff, alookup_ainsert, ← alookup_isSome_iff]
  by_cases hq : q = k <;> simp [hq]

theorem ainsert_of_not_mem {A : Type} {l : List (S × A)} {k : S} {v : A}
    (h : k ∉ keysOf l) : ainsert l k v = l ++ [(k, v)] := by
  induction l with
  | nil => simp [ainsert]
  | cons p rest ih =>
      obtain ⟨pk, pv⟩ := p
      simp only [keysOf, List.map_cons, List.mem_cons, not_or] at h
      simp only [ainsert, if_neg (Ne.symm h.1), List.cons_append,
        List.cons.injEq, true_and]
      exact ih h.2

theorem nodup_keysOf_ainsert {A : Type} {l : List (S × A)} {k : S} {v : A}
    (h : (keysOf l).Nodup) : (keysOf (ainsert l k v)).Nodup := by
  induction l with
  | nil => simp [ainsert, keysOf]
  | cons p rest ih =>
      obtain ⟨pk, pv⟩ := p
      rw [keysOf, List.map_cons, List.nodup_cons] at h
      by_cases hpk : pk = k
      · subst hpk
        simpa [ainsert, keysOf, List.nodup_cons] using h
      · simp only [ainsert, if_neg hpk, keysOf, List.map_cons,
          List.nodup_cons]
        refine ⟨fun hm => ?_, ih h.2⟩
        rcases (mem_keysOf_ainsert (l := rest)).mp hm with hm | rfl
        · exact h.1 hm
        · exact hpk rfl

theorem alookup_aremove {A : Type} (l : List (S × A)) (k q : S) :
    alookup (aremove l k) q = if q = k then none else alookup l q := by
  induction l with
  | nil => simp [aremove, alookup]
  | cons p rest ih =>
      obtain ⟨pk, pv⟩ := p
      by_cases hpk : pk = k
      · subst hpk
        by_cases hq : q = pk
        · subst hq
          simp [aremove, ih]
        · simp [aremove, alookup, hq, ih]
      · by_cases hq : q = pk
        · subst hq
          simp [aremove, hpk, alookup, if_neg hpk]
        · simp [aremove, hpk, alookup, hq, ih]

theorem mem_of_mem_aremove {A : Type} {l : List (S × A)} {k : S}
    {p : S × A} (h : p ∈ aremove l k) : p ∈ l ∧ p.1 ≠ k := by
  induction l with
  | nil => cases h
  | cons q rest ih =>
      obtain ⟨qk, qv⟩ := q
      by_cases hqk : qk = k
      · subst hqk
        simp only [aremove, if_pos rfl] at h
        exact ⟨List.mem_cons_of_mem _ (ih h).1, (ih h).2⟩
      · simp only [aremove, if_neg hqk] at h
        rcases List.mem_cons.mp h with rfl | h
        · exact ⟨List.mem_cons_self _ _, hqk⟩
        · exact ⟨List.mem_cons_of_mem _ (ih h).1, (ih h).2⟩

theorem mem_keysOf_aremove {A : Type} {l : List (S × A)} {k q : S} :
    q ∈ keysOf (aremove l k) ↔ q ∈ keysOf l ∧ q ≠ k := by
  constructor
  · intro h
    obtain ⟨⟨qk, qv⟩, hm, rfl⟩ := List.mem_map.mp h
    obtain ⟨hl, hne⟩ := mem_of_mem_aremove hm
    exact ⟨mem_keysOf hl, hne⟩
  · rintro ⟨h, hne⟩
    rw [← alookup_isSome_iff] at h ⊢
    rwa [alookup_aremove, if_neg hne]

theorem nodup_keysOf_aremove {A : Type} {l : List (S × A)} {k : S}
    (h : (keysOf l).Nodup) : (keysOf (aremove l k)).Nodup := by
  induction l with
  | nil => simp [aremove, keysOf]
  | cons p rest ih =>
      obtain ⟨pk, pv⟩ := p
      rw [keysOf, List.map_cons, List.nodup_cons] at h
      by_cases hpk : pk = k
      · subst hpk
        simpa [aremove] using ih h.2
      · simp only [aremove, if_neg hpk, keysOf, List.map_cons,
          List.nodup_cons]
        refine ⟨fun hm => ?_, ih h.2⟩
        exact h.1 (mem_keysOf_aremove.mp hm).1

/-! Lemmas about the frontier minimum scan. -/

theorem fmAux_mem (cur : S × Int) (l : List (S × Int)) :
    fmAux cur l = cur ∨ fmAux cur l ∈ l := by
  induction l generalizing cur with
  | nil => exact Or.inl rfl
  | cons kv rest ih =>
      by_cases h : kv.2 < cur.2
      · rcases ih kv with heq | hm
        · exact Or.inr (by simp [fmAux, h, heq])
        · exact Or.inr (by simp [fmAux, h]; exact Or.inr hm)
      · rcases ih cur with heq | hm
        · exact Or.inl (by simp [fmAux, h, heq])
        · exact Or.inr (by simp [fmAux, h]; exact Or.inr hm)

theorem fmAux_le (cur : S × Int) (l : List (S × Int)) :
    (fmAux cur l).2 ≤ cur.2 ∧ ∀ kv ∈ l, (fmAux cur l).2 ≤ kv.2 := by
  induction l generalizing cur with
  | nil => simp [fmAux]
  | cons kv rest ih =>
      by_cases h : kv.2 < cur.2
      · have hkv := ih kv
        constructor
        · simp only [fmAux, if_pos h]
          exact le_trans hkv.1 (le_of_lt h)
        · intro p hp
          simp only [fmAux, if_pos h]
          rcases List.mem_cons.mp hp with rfl | hp
          · exact hkv.1
          · exact hkv.2 p hp
      · have hcur := ih cur
        constructor
        · simp only [fmAux, if_neg h]
          exact hcur.1
        · intro p hp
          simp only [fmAux, if_neg h]
          rcases List.mem_cons.mp hp with rfl | hp
          · exact le_trans hcur.1 (not_lt.mp h)
          · exact hcur.2 p hp

theorem find_min_eq_none {l : List (S × Int)} :
    find_min_key_value_pair l = none ↔ l = [] := by
  cases l <;> simp [find_min_key_value_pair]

theorem find_min_mem {l : List (S × Int)} {kv : S × Int}
    (h : find_min_key_value_pair l = some kv) : kv ∈ l := by
  cases l with
  | nil => exact absurd h (by simp [find_min_key_value_pair])
  | cons a rest =>
      simp only [find_min_key_value_pair, Option.some.injEq] at h
      subst h
      rcases fmAux_mem a rest with heq | hm
      · simp [heq]
      · exact List.mem_cons_of_mem _ hm

theorem find_min_le {l : List (S × Int)} {kv : S × Int}
    (h : find_min_key_value_pair l = some kv) : ∀ p ∈ l, kv.2 ≤ p.2 := by
  cases l with
  | nil => exact absurd h (by simp [find_min_key_value_pair])
  | cons a rest =>
      simp only [find_min_key_value_pair, Option.some.injEq] at h
      subst h
      intro p hp
      rcases List.mem_cons.mp hp with heq | hp
      · rw [heq]
        exact (fmAux_le a rest).1
      · exact (fmAux_le a rest).2 p hp

theorem fmAux_first_min (l : List (S × Int)) (cur : S × Int) :
    ∃ l1 l2, cur :: l = l1 ++ fmAux cur l :: l2 ∧
      (∀ p ∈ l1, (fmAux cur l).2 < p.2) := by
  induction l generalizing cur with
  | nil => exact ⟨[], [], rfl, by simp⟩
  | cons kv rest ih =>
      by_cases h : kv.2 < cur.2
      · obtain ⟨l1, l2, hsplit, hlt⟩ := ih kv
        refine ⟨cur :: l1, l2, ?_, ?_⟩
        · simp only [fmAux, if_pos h]
          rw [List.cons_append, ← hsplit]
        · intro p hp
          rcases List.mem_cons.mp hp with rfl | hp
          · simp only [fmAux, if_pos h]
            exact lt_of_le_of_lt (fmAux_le kv rest).1 h
          · simpa [fmAux, h] using hlt p hp
      · obtain ⟨l1, l2, hsplit, hlt⟩ := ih cur
        cases l1 with
        | nil =>
            simp only [List.nil_append] at hsplit
            injection hsplit with hc hl
            refine ⟨[], kv :: rest, ?_, by simp⟩
            simp [fmAux, h, ← hc]
        | cons q l1' =>
            simp only [List.cons_append] at hsplit
            injection hsplit with hq htail
            subst hq
            refine ⟨cur :: kv :: l1', l2, ?_, ?_⟩
            · simp only [fmAux, if_neg h]
              rw [List.cons_append, List.cons_append, ← htail]
            · intro p hp
              simp only [fmAux, if_neg h]
              rcases List.mem_cons.mp hp with rfl | hp
              · exact hlt p (List.mem_cons_self _ _)
              · rcases List.mem_cons.mp hp with rfl | hp
                · exact lt_of_lt_of_le (hlt cur (List.mem_cons_self _ _))
                    (not_lt.mp h)
                · exact hlt p (List.mem_cons_of_mem _ hp)

theorem find_min_first_min {l : List (S × Int)} {kv : S × Int}
    (h : find_min_key_value_pair l = some kv) :
    ∃ l1 l2, l = l1 ++ kv :: l2 ∧ (∀ p ∈ l, kv.2 ≤ p.2) ∧
      ∀ p ∈ l1, kv.2 < p.2 := by
  cases l with
  | nil => exact absurd h (by simp [find_min_key_value_pair])
  | cons a rest =>
      simp only [find_min_key_value_pair, Option.some.injEq] at h
      subst h
      obtain ⟨l1, l2, hsplit, hlt⟩ := fmAux_first_min rest a
      exact ⟨l1, l2, hsplit, find_min_le (l := a :: rest) rfl, hlt⟩

/-! Lemmas about paths and costs. -/

theorem pathCost_nil : pathCost ([] : List (S × Int)) = 0 := rfl

theorem pathCost_cons (v : S) (w : Int) (p : List (S × Int)) :
    pathCost ((v, w) :: p) = w + pathCost p := by
  simp [pathCost]

theorem pathCost_append (p q : List (S × Int)) :
    pathCost (p ++ q) = pathCost p + pathCost q := by
  simp [pathCost]

theorem IsPath.append {g : S → List (S × Int)} {u v t : S}
    {p q : List (S × Int)} (hp : IsPath g u p v) (hq : IsPath g v q t) :
    IsPath g u (p ++ q) t := by
  induction hp with
  | nil => simpa using hq
  | cons he _ ih => exact IsPath.cons he (ih hq)

theorem IsPath.cost_nonneg {g : S → List (S × Int)} {u v : S}
    {p : List (S × Int)} (hn : NonNegWeights g) (hp : IsPath g u p v) :
    0 ≤ pathCost p := by
  induction hp with
  | nil => simp [pathCost]
  | cons he _ ih =>
      rw [pathCost_cons]
      exact add_nonneg (hn _ _ _ he) ih

theorem ShortestFrom.nonneg {g : S → List (S × Int)} {starts : List S}
    {v : S} {d : Int} (hn : NonNegWeights g) (h : ShortestFrom g starts v d) :
    0 ≤ d := by
  obtain ⟨⟨s, _, p, hp, rfl⟩, _⟩ := h
  exact hp.cost_nonneg hn

theorem ShortestFrom.triangle {g : S → List (S × Int)} {starts : List S}
    {u v : S} {du dv w : Int} (hu : ShortestFrom g starts u du)
    (hv : ShortestFrom g starts v dv) (he : (v, w) ∈ g u) :
    dv ≤ du + w := by
  obtain ⟨⟨s, hs, p, hp, hcost⟩, _⟩ := hu
  have hpath : IsPath g s (p ++ [(v, w)]) v :=
    hp.append (IsPath.cons he (IsPath.nil v))
  have := hv.2 s hs _ hpath
  simpa [pathCost_append, pathCost_cons, pathCost_nil, hcost] using this

/-! Claims about the coordinate packing (C3). -/

/-- Claim C3: position_to_coordinates is a two-sided inverse of
coordinates_to_position, so the packing is a bijection between u64 positions
and pairs of u32 coordinates. -/
theorem coordinates_position_bijection :
    (∀ r c : Nat, r < 2 ^ 32 → c < 2 ^ 32 →
      Maze.position_to_coordinates (Maze.coordinates_to_position r c) =
        (r, c)) ∧
    ∀ p : Nat, p < 2 ^ 64 →
      Maze.coordinates_to_position (Maze.position_to_coordinates p).1
        (Maze.position_to_coordinates p).2 = p := by
  have e32 : (2 : Nat) ^ 32 = 4294967296 := by norm_num
  have e64 : (2 : Nat) ^ 64 = 18446744073709551616 := by norm_num
  constructor
  · intro r c hr hc
    unfold Maze.position_to_coordinates Maze.coordinates_to_position
    rw [Nat.and_pow_two_sub_one_eq_mod]
    rw [e32] at hr hc ⊢
    simp only [Prod.mk.injEq]
    omega
  · intro p hp
    unfold Maze.position_to_coordinates Maze.coordinates_to_position
    rw [Nat.and_pow_two_sub_one_eq_mod]
    rw [e64] at hp
    rw [e32]
    omega

/-- Witness for C3: the round trips evaluated at the coordinates (3, 7) and
at the position 12884901893. -/
theorem coordinates_position_bijection_witness :
    Maze.position_to_coordinates (Maze.coordinates_to_position 3 7) =
        (3, 7) ∧
      Maze.coordinates_to_position
        (Maze.position_to_coordinates 12884901893).1
        (Maze.position_to_coordinates 12884901893).2 = 12884901893 :=
  ⟨coordinates_position_bijection.1 3 7 (by decide) (by decide),
    coordinates_position_bijection.2 12884901893 (by decide)⟩

/-! Claims about the solver boundary behavior (C8). -/

/-- Claim C8: calling solve_dijkstra with an empty source list returns an
empty distance map, an empty predecessor map and no reached target, for every
graph and every target list; the loop body never runs, so no error can
arise. -/
theorem solve_dijkstra_empty_sources {S : Type} [DecidableEq S]
    (g : S → List (S × Int)) (end_vertices : List S) (fuel : Nat) :
    solve_dijkstra g [] end_vertices (fuel + 1) = some ([], [], none) := rfl

/-! Lemmas characterizing one relaxation pass. -/

theorem offerMin_eq_none {d : Int} {ns : List (S × Int)} {k : S} :
    offerMin d ns k = none ↔ k ∉ keysOf ns := by
  induction ns with
  | nil => simp [offerMin, keysOf]
  | cons nw rest ih =>
      obtain ⟨n, w⟩ := nw
      by_cases hnk : n = k
      · subst hnk
        constructor
        · intro h
          rcases hm : offerMin d rest n with _ | m <;>
            simp [offerMin, hm] at h
        · intro h
          exact absurd (by simp [keysOf]) h
      · simpa [offerMin, hnk, keysOf, Ne.symm hnk] using ih

theorem offerMin_le (d : Int) {ns : List (S × Int)} {k : S} {w : Int}
    (h : (k, w) ∈ ns) : ∃ m, offerMin d ns k = some m ∧ m ≤ d + w := by
  induction ns with
  | nil => cases h
  | cons nw rest ih =>
      obtain ⟨n, w'⟩ := nw
      rcases List.mem_cons.mp h with heq | hmem
      · cases heq
        rcases hm : offerMin d rest k with _ | m
        · exact ⟨d + w, by simp [offerMin, hm], le_refl _⟩
        · exact ⟨min (d + w) m, by simp [offerMin, hm], min_le_left _ _⟩
      · obtain ⟨m, hm, hle⟩ := ih hmem
        by_cases hnk : n = k
        · subst hnk
          exact ⟨min (d + w') m, by simp [offerMin, hm],
            le_trans (min_le_right _ _) hle⟩
        · exact ⟨m, by simp [offerMin, hnk, hm], hle⟩

theorem offerMin_mem {d : Int} {ns : List (S × Int)} {k : S} {m : Int}
    (h : offerMin d ns k = some m) : ∃ w, (k, w) ∈ ns ∧ m = d + w := by
  induction ns generalizing m with
  | nil => exact absurd h (by simp [offerMin])
  | cons nw rest ih =>
      obtain ⟨n, w'⟩ := nw
      by_cases hnk : n = k
      · subst hnk
        rcases hm : offerMin d rest n with _ | m'
        · simp [offerMin, hm] at h
          exact ⟨w', List.mem_cons_self _ _, h.symm⟩
        · simp [offerMin, hm] at h
          rcases le_total (d + w') m' with hle | hle
          · refine ⟨w', List.mem_cons_self _ _, ?_⟩
            rw [← h, min_eq_left hle]
          · obtain ⟨w2, hw2, hm2⟩ := ih hm
            refine ⟨w2, List.mem_cons_of_mem _ hw2, ?_⟩
            rw [← h, min_eq_right hle, hm2]
      · simp only [offerMin, if_neg hnk] at h
        obtain ⟨w2, hw2, hm2⟩ := ih h
        exact ⟨w2, List.mem_cons_of_mem _ hw2, hm2⟩

theorem offerMin_perm {d : Int} {ns ns' : List (S × Int)} {k : S}
    (h : ns.Perm ns') : offerMin d ns k = offerMin d ns' k := by
  induction h with
  | nil => rfl
  | cons x l ih =>
      obtain ⟨n, w⟩ := x
      by_cases hnk : n = k <;> simp [offerMin, hnk, ih]
  | swap x y l =>
      obtain ⟨nx, wx⟩ := x
      obtain ⟨ny, wy⟩ := y
      by_cases hx : nx = k <;> by_cases hy : ny = k <;>
        rcases hm : offerMin d l k with _ | m <;>
          simp [offerMin, hx, hy, hm]
      · exact min_comm _ _
      · exact min_left_comm _ _ _
  | trans h1 h2 ih1 ih2 => exact ih1.trans ih2

theorem relax_current_lookup (vertex : S) (d : Int)
    (processed : List (S × Int)) (ns : List (S × Int))
    (current : List (S × Int)) (predecessors : List (S × S)) (k : S) :
    alookup
        (relax_neighbors vertex d processed ns current predecessors).1 k =
      if (alookup processed k).isSome then alookup current k
      else
        match alookup current k, offerMin d ns k with
        | some cd, some m => some (min cd m)
        | some cd, none => some cd
        | none, some m => some m
        | none, none => none := by
  induction ns generalizing current predecessors with
  | nil =>
      by_cases hp : (alookup processed k).isSome <;>
        rcases hc : alookup current k with _ | cd <;>
          simp [relax_neighbors, offerMin, hp, hc]
  | cons nw rest ih =>
      obtain ⟨n, w⟩ := nw
      by_cases hn : (alookup processed n).isSome
      · rw [show relax_neighbors vertex d processed ((n, w) :: rest)
              current predecessors =
            relax_neighbors vertex d processed rest current predecessors
            by simp [relax_neighbors, hn]]
        rw [ih]
        by_cases hnk : n = k
        · subst hnk
          simp [hn]
        · simp [offerMin, hnk]
      · by_cases hnk : n = k
        · subst hnk
          simp only [Option.isSome] at hn
          rcases hpk : alookup processed n with _ | pv
          · rcases hc : alookup current n with _ | cd
            · rw [show relax_neighbors vertex d processed ((n, w) :: rest)
                    current predecessors =
                  relax_neighbors vertex d processed rest
                    (ainsert current n (d + w))
                    (ainsert predecessors n vertex)
                  by simp [relax_neighbors, hpk, hc]]
              rw [ih]
              simp only [hpk, Option.isSome_none, Bool.false_eq_true,
                if_false, alookup_ainsert, if_pos rfl, if_true, hc,
                offerMin]
              rcases hm : offerMin d rest n with _ | m <;> simp [hm]
            · by_cases hlt : d + w < cd
              · rw [show relax_neighbors vertex d processed
                      ((n, w) :: rest) current predecessors =
                    relax_neighbors vertex d processed rest
                      (ainsert current n (d + w))
                      (ainsert predecessors n vertex)
                    by simp [relax_neighbors, hpk, hc, hlt]]
                rw [ih]
                simp only [hpk, Option.isSome_none, Bool.false_eq_true,
                  if_false, alookup_ainsert, if_pos rfl, if_true, hc,
                  offerMin]
                rcases hm : offerMin d rest n with _ | m <;>
                  simp only [hm, Option.some.injEq, min_def, if_true] <;>
                    split_ifs <;> omega
              · rw [show relax_neighbors vertex d processed
                      ((n, w) :: rest) current predecessors =
                    relax_neighbors vertex d processed rest
                      current predecessors
                    by simp [relax_neighbors, hpk, hc, hlt]]
                rw [ih]
                simp only [hpk, Option.isSome_none, Bool.false_eq_true,
                  if_false, hc, offerMin]
                rcases hm : offerMin d rest n with _ | m <;>
                  simp only [hm, Option.some.injEq, min_def, if_true] <;>
                    split_ifs <;> omega
          · simp [hpk] at hn
        · have hstep : ∀ c2 p2,
              alookup
                (relax_neighbors vertex d processed rest c2 p2).1 k =
              if (alookup processed k).isSome then alookup c2 k
              else
                match alookup c2 k, offerMin d rest k with
                | some cd, some m => some (min cd m)
                | some cd, none => some cd
                | none, some m => some m
                | none, none => none := fun c2 p2 => ih c2 p2
          have hoff : offerMin d ((n, w) :: rest) k = offerMin d rest k := by
            simp [offerMin, hnk]
          rcases hpk : alookup processed n with _ | pv
          · rcases hc : alookup current n with _ | cd
            · rw [show relax_neighbors vertex d processed ((n, w) :: rest)
                    current predecessors =
                  relax_neighbors vertex d processed rest
                    (ainsert current n (d + w))
                    (ainsert predecessors n vertex)
                  by simp [relax_neighbors, hpk, hc]]
              rw [hstep, hoff, alookup_ainsert, if_neg (Ne.symm hnk)]
            · by_cases hlt : d + w < cd
              · rw [show relax_neighbors vertex d processed
                      ((n, w) :: rest) current predecessors =
                    relax_neighbors vertex d processed rest
                      (ainsert current n (d + w))
                      (ainsert predecessors n vertex)
                    by simp [relax_neighbors, hpk, hc, hlt]]
                rw [hstep, hoff, alookup_ainsert, if_neg (Ne.symm hnk)]
              · rw [show relax_neighbors vertex d processed
                      ((n, w) :: rest) current predecessors =
                    relax_neighbors vertex d processed rest
                      current predecessors
                    by simp [relax_neighbors, hpk, hc, hlt]]
                rw [hstep, hoff]
          · simp [hpk] at hn

theorem relax_pred_lookup (vertex : S) (d : Int)
    (processed : List (S × Int)) (ns : List (S × Int))
    (current : List (S × Int)) (predecessors : List (S × S)) (k : S) :
    alookup
        (relax_neighbors vertex d processed ns current predecessors).2 k =
      if (alookup processed k).isSome then alookup predecessors k
      else
        match alookup current k, offerMin d ns k with
        | some cd, some m =>
            if m < cd then some vertex else alookup predecessors k
        | none, some m => some vertex
        | _, none => alookup predecessors k := by
  induction ns generalizing current predecessors with
  | nil =>
      by_cases hp : (alookup processed k).isSome <;>
        rcases hc : alookup current k with _ | cd <;>
          simp [relax_neighbors, offerMin, hp, hc]
  | cons nw rest ih =>
      obtain ⟨n, w⟩ := nw
      by_cases hn : (alookup processed n).isSome
      · rw [show relax_neighbors vertex d processed ((n, w) :: rest)
              current predecessors =
            relax_neighbors vertex d processed rest current predecessors
            by simp [relax_neighbors, hn]]
        rw [ih]
        by_cases hnk : n = k
        · subst hnk
          simp [hn]
        · simp [offerMin, hnk]
      · by_cases hnk : n = k
        · subst hnk
          rcases hpk : alookup processed n with _ | pv
          · rcases hc : alookup current n with _ | cd
            · rw [show relax_neighbors vertex d processed ((n, w) :: rest)
                    current predecessors =
                  relax_neighbors vertex d processed rest
                    (ainsert current n (d + w))
                    (ainsert predecessors n vertex)
                  by simp [relax_neighbors, hpk, hc]]
              rw [ih]
              simp only [hpk, Option.isSome_none, Bool.false_eq_true,
                if_false, alookup_ainsert, if_pos rfl, if_true, hc,
                offerMin]
              rcases hm : offerMin d rest n with _ | m <;>
                simp only [hm, min_def, if_true] <;>
                  split_ifs <;> first | rfl | omega
            · by_cases hlt : d + w < cd
              · rw [show relax_neighbors vertex d processed
                      ((n, w) :: rest) current predecessors =
                    relax_neighbors vertex d processed rest
                      (ainsert current n (d + w))
                      (ainsert predecessors n vertex)
                    by simp [relax_neighbors, hpk, hc, hlt]]
                rw [ih]
                simp only [hpk, Option.isSome_none, Bool.false_eq_true,
                  if_false, alookup_ainsert, if_pos rfl, if_true, hc,
                  offerMin]
                rcases hm : offerMin d rest n with _ | m <;>
                  simp only [hm, min_def, if_true] <;>
                    split_ifs <;> first | rfl | omega
              · rw [show relax_neighbors vertex d processed
                      ((n, w) :: rest) current predecessors =
                    relax_neighbors vertex d processed rest
                      current predecessors
                    by simp [relax_neighbors, hpk, hc, hlt]]
                rw [ih]
                simp only [hpk, Option.isSome_none, Bool.false_eq_true,
                  if_false, hc, offerMin]
                rcases hm : offerMin d rest n with _ | m <;>
                  simp only [hm, min_def, if_true] <;>
                    split_ifs <;> first | rfl | omega
          · simp [hpk] at hn
        · have hoff : offerMin d ((n, w) :: rest) k = offerMin d rest k := by
            simp [offerMin, hnk]
          rcases hpk : alookup processed n with _ | pv
          · rcases hc : alookup current n with _ | cd
            · rw [show relax_neighbors vertex d processed ((n, w) :: rest)
                    current predecessors =
                  relax_neighbors vertex d processed rest
                    (ainsert current n (d + w))
                    (ainsert predecessors n vertex)
                  by simp [relax_neighbors, hpk, hc]]
              rw [ih, hoff, alookup_ainsert, if_neg (Ne.symm hnk),
                alookup_ainsert, if_neg (Ne.symm hnk)]
            · by_cases hlt : d + w < cd
              · rw [show relax_neighbors vertex d processed
                      ((n, w) :: rest) current predecessors =
                    relax_neighbors vertex d processed rest
                      (ainsert current n (d + w))
                      (ainsert predecessors n vertex)
                    by simp [relax_neighbors, hpk, hc, hlt]]
                rw [ih, hoff, alookup_ainsert, if_neg (Ne.symm hnk),
                  alookup_ainsert, if_neg (Ne.symm hnk)]
              · rw [show relax_neighbors vertex d processed
                      ((n, w) :: rest) current predecessors =
                    relax_neighbors vertex d processed rest
                      current predecessors
                    by simp [relax_neighbors, hpk, hc, hlt]]
                rw [ih, hoff]
          · simp [hpk] at hn

theorem relax_nodup_cur (vertex : S) (d : Int)
    (processed : List (S × Int)) (ns : List (S × Int)) :
    ∀ current predecessors, (keysOf current).Nodup →
      (keysOf
        (relax_neighbors vertex d processed ns current
          predecessors).1).Nodup := by
  induction ns with
  | nil => intro current predecessors h; simpa [relax_neighbors] using h
  | cons nw rest ih =>
      obtain ⟨n, w⟩ := nw
      intro current predecessors h
      by_cases hn : (alookup processed n).isSome
      · rw [show relax_neighbors vertex d processed ((n, w) :: rest)
              current predecessors =
            relax_neighbors vertex d processed rest current predecessors
            by simp [relax_neighbors, hn]]
        exact ih current predecessors h
      · rcases hpk : alookup processed n with _ | pv
        · rcases hc : alookup current n with _ | cd
          · rw [show relax_neighbors vertex d processed ((n, w) :: rest)
                  current predecessors =
                relax_neighbors vertex d processed rest
                  (ainsert current n (d + w))
                  (ainsert predecessors n vertex)
                by simp [relax_neighbors, hpk, hc]]
            exact ih _ _ (nodup_keysOf_ainsert h)
          · by_cases hlt : d + w < cd
            · rw [show relax_neighbors vertex d processed ((n, w) :: rest)
                    current predecessors =
                  relax_neighbors vertex d processed rest
                    (ainsert current n (d + w))
                    (ainsert predecessors n vertex)
                  by simp [relax_neighbors, hpk, hc, hlt]]
              exact ih _ _ (nodup_keysOf_ainsert h)
            · rw [show relax_neighbors vertex d processed ((n, w) :: rest)
                    current predecessors =
                  relax_neighbors vertex d processed rest
                    current predecessors
                  by simp [relax_neighbors, hpk, hc, hlt]]
              exact ih current predecessors h
        · simp [hpk] at hn

/-! Lemmas about the maze constructor and coordinate packing. -/

theorem unpack_pack {r c : Nat} (hr : r < 2 ^ 32) (hc : c < 2 ^ 32) :
    Maze.position_to_coordinates (Maze.coordinates_to_position r c) =
      (r, c) := by
  have e32 : (2 : Nat) ^ 32 = 4294967296 := by norm_num
  unfold Maze.position_to_coordinates Maze.coordinates_to_position
  rw [Nat.and_pow_two_sub_one_eq_mod]
  rw [e32] at hr hc ⊢
  simp only [Prod.mk.injEq]
  omega

theorem pack_injective {r c r' c' : Nat} (hr : r < 2 ^ 32) (hc : c < 2 ^ 32)
    (hr' : r' < 2 ^ 32) (hc' : c' < 2 ^ 32)
    (h : Maze.coordinates_to_position r c =
      Maze.coordinates_to_position r' c') : r = r' ∧ c = c' := by
  have h1 := unpack_pack hr hc
  rw [h, unpack_pack hr' hc'] at h1
  exact ⟨(congrArg Prod.fst h1).symm, (congrArg Prod.snd h1).symm⟩

theorem range_lt_iff {w L : Nat} :
    (∀ x ∈ List.range w, x < L) ↔ w ≤ L := by
  simp only [List.mem_range]
  constructor
  · intro h
    by_cases hw : w = 0
    · omega
    · have := h (w - 1) (by omega)
      omega
  · intro h x hx
    omega

theorem length_le_utf8Len (line : List Char) :
    line.length ≤ Maze.utf8Len line := by
  induction line with
  | nil => simp [Maze.utf8Len]
  | cons c l ih =>
      have := c.utf8Size_pos
      simp only [Maze.utf8Len, List.map_cons, List.sum_cons,
        List.length_cons] at ih ⊢
      omega

theorem scan_row_isSome {row : List Char} {y : Nat} {ch : Char}
    {xs : List Nat} :
    (Maze.scan_row row y ch xs).isSome = true ↔
      ∀ x ∈ xs, x < row.length := by
  induction xs with
  | nil => simp [Maze.scan_row]
  | cons x xs ih =>
      rcases hx : row[x]? with _ | c
      · simp only [Maze.scan_row, hx, Option.isSome_none,
          Bool.false_eq_true, false_iff]
        intro h
        have := h x (List.mem_cons_self _ _)
        rw [List.getElem?_eq_none_iff] at hx
        omega
      · have hxlt : x < row.length := by
          obtain ⟨hlt, _⟩ := List.getElem?_eq_some_iff.mp hx
          exact hlt
        rcases hs : Maze.scan_row row y ch xs with _ | ps
        · rw [hs] at ih
          simp only [Maze.scan_row, hx, hs, Option.isSome_none,
            Bool.false_eq_true, false_iff] at ih ⊢
          intro h
          exact ih fun z hz => h z (List.mem_cons_of_mem _ hz)
        · rw [hs] at ih
          simp only [Maze.scan_row, hx, hs, Option.isSome_some,
            true_iff] at ih ⊢
          constructor
          · intro _ z hz
            rcases List.mem_cons.mp hz with rfl | hz
            · exact hxlt
            · exact ih z hz
          · intro _
            split <;> rfl

theorem scan_row_mem {row : List Char} {y : Nat} {ch : Char}
    {xs : List Nat} {ps : List Nat}
    (h : Maze.scan_row row y ch xs = some ps) {p : Nat} :
    p ∈ ps ↔ ∃ x ∈ xs, row[x]? = some ch ∧
      p = Maze.coordinates_to_position y x := by
  induction xs generalizing ps with
  | nil =>
      obtain rfl : ([] : List Nat) = ps := by
        simpa [Maze.scan_row] using h
      simp
  | cons x xs ih =>
      rcases hx : row[x]? with _ | c
      · rw [Maze.scan_row, hx] at h
        exact Option.noConfusion h
      · rcases hs : Maze.scan_row row y ch xs with _ | rest
        · simp only [Maze.scan_row, hx, hs] at h
          exact Option.noConfusion h
        · simp only [Maze.scan_row, hx, hs] at h
          by_cases hc : c = ch
          · rw [if_pos hc] at h
            obtain rfl : Maze.coordinates_to_position y x :: rest = ps :=
              (Option.some.injEq _ _).mp h
            rw [List.mem_cons, ih hs]
            constructor
            · rintro (rfl | ⟨z, hz, hget, rfl⟩)
              · exact ⟨x, List.mem_cons_self _ _, by rw [hx, hc], rfl⟩
              · exact ⟨z, List.mem_cons_of_mem _ hz, hget, rfl⟩
            · rintro ⟨z, hz, hget, rfl⟩
              rcases List.mem_cons.mp hz with rfl | hz
              · exact Or.inl rfl
              · exact Or.inr ⟨z, hz, hget, rfl⟩
          · rw [if_neg hc] at h
            obtain rfl : rest = ps := (Option.some.injEq _ _).mp h
            rw [ih hs]
            constructor
            · rintro ⟨z, hz, hget, rfl⟩
              exact ⟨z, List.mem_cons_of_mem _ hz, hget, rfl⟩
            · rintro ⟨z, hz, hget, rfl⟩
              rcases List.mem_cons.mp hz with rfl | hz
              · rw [hx] at hget
                exact absurd ((Option.some.injEq _ _).mp hget) hc
              · exact ⟨z, hz, hget, rfl⟩

theorem scan_rows_isSome {layout : List (List Char)} {width : Nat}
    {ch : Char} {ys : List Nat} :
    (Maze.scan_rows layout width ch ys).isSome = true ↔
      ∀ y ∈ ys, width ≤ (layout.getD y []).length := by
  induction ys with
  | nil => simp [Maze.scan_rows]
  | cons y ys ih =>
      rcases hr : Maze.scan_row (layout.getD y []) y ch
          (List.range width) with _ | ps
      · simp only [Maze.scan_rows, hr, Option.isSome_none,
          Bool.false_eq_true, false_iff]
        intro h
        have hfalse : (Maze.scan_row (layout.getD y []) y ch
            (List.range width)).isSome = true :=
          scan_row_isSome.mpr (range_lt_iff.mpr
            (h y (List.mem_cons_self _ _)))
        rw [hr] at hfalse
        exact Bool.noConfusion hfalse
      · have hy : width ≤ (layout.getD y []).length :=
          range_lt_iff.mp (scan_row_isSome.mp (by rw [hr]; rfl))
        rcases hs : Maze.scan_rows layout width ch ys with _ | rest
        · rw [hs] at ih
          simp only [Maze.scan_rows, hr, hs, Option.isSome_none,
            Bool.false_eq_true, false_iff] at ih ⊢
          intro h
          exact ih fun z hz => h z (List.mem_cons_of_mem _ hz)
        · rw [hs] at ih
          simp only [Maze.scan_rows, hr, hs, Option.isSome_some,
            true_iff] at ih ⊢
          intro z hz
          rcases List.mem_cons.mp hz with rfl | hz
          · exact hy
          · exact ih z hz

theorem scan_rows_mem {layout : List (List Char)} {width : Nat} {ch : Char}
    {ys : List Nat} {ps : List Nat}
    (h : Maze.scan_rows layout width ch ys = some ps) {p : Nat} :
    p ∈ ps ↔ ∃ y ∈ ys, ∃ x, x < width ∧
      (layout.getD y [])[x]? = some ch ∧
      p = Maze.coordinates_to_position y x := by
  induction ys generalizing ps with
  | nil =>
      obtain rfl : ([] : List Nat) = ps := by
        simpa [Maze.scan_rows] using h
      simp
  | cons y ys ih =>
      rcases hr : Maze.scan_row (layout.getD y []) y ch
          (List.range width) with _ | psy
      · rw [Maze.scan_rows, hr] at h
        exact Option.noConfusion h
      · rcases hs : Maze.scan_rows layout width ch ys with _ | rest
        · simp only [Maze.scan_rows, hr, hs] at h
          exact Option.noConfusion h
        · simp only [Maze.scan_rows, hr, hs] at h
          obtain rfl : psy ++ rest = ps := (Option.some.injEq _ _).mp h
          rw [List.mem_append, scan_row_mem hr, ih hs]
          constructor
          · rintro (⟨x, hx, hget, rfl⟩ | ⟨z, hz, x, hx, hget, rfl⟩)
            · exact ⟨y, List.mem_cons_self _ _, x,
                List.mem_range.mp hx, hget, rfl⟩
            · exact ⟨z, List.mem_cons_of_mem _ hz, x, hx, hget, rfl⟩
          · rintro ⟨z, hz, x, hx, hget, rfl⟩
            rcases List.mem_cons.mp hz with rfl | hz
            · exact Or.inl ⟨x, List.mem_range.mpr hx, hget, rfl⟩
            · exact Or.inr ⟨z, hz, x, hx, hget, rfl⟩

theorem maze_new_spec {layout : List (List Char)} {m : Maze}
    (h : Maze.new layout = some m) :
    m.layout = layout ∧ m.height = layout.length ∧
      m.width = Maze.utf8Len (layout.headD []) ∧ m.start_char = '@' ∧
      m.end_char = '$' ∧
      Maze.find_character_in_layout layout m.width m.height '@' =
        some m.start_positions ∧
      Maze.find_character_in_layout layout m.width m.height '$' =
        some m.end_positions ∧
      ∀ line ∈ layout, line.length = m.width := by
  cases layout with
  | nil => exact absurd h (by simp [Maze.new])
  | cons first rest =>
      by_cases hall : rest.all fun line =>
          Maze.utf8Len line = Maze.utf8Len first
      · rcases hA : Maze.find_character_in_layout (first :: rest)
            (Maze.utf8Len first) (first :: rest).length '@' with _ | sp
        · have hA' : Maze.find_character_in_layout (first :: rest)
              (Maze.utf8Len first) (rest.length + 1) '@' = none := hA
          exact absurd h (by simp [Maze.new, hall, hA'])
        · rcases hB : Maze.find_character_in_layout (first :: rest)
              (Maze.utf8Len first) (first :: rest).length '$' with _ | ep
          · have hA' : Maze.find_character_in_layout (first :: rest)
                (Maze.utf8Len first) (rest.length + 1) '@' = some sp := hA
            have hB' : Maze.find_character_in_layout (first :: rest)
                (Maze.utf8Len first) (rest.length + 1) '$' = none := hB
            exact absurd h (by simp [Maze.new, hall, hA', hB'])
          · have hcond : ∀ y ∈ List.range (first :: rest).length,
                Maze.utf8Len first ≤ ((first :: rest).getD y []).length := by
              rw [← scan_rows_isSome]
              rw [Maze.find_character_in_layout] at hA
              rw [hA]
              rfl
            simp only [Maze.new, if_pos hall, hA, hB,
              Option.some.injEq] at h
            subst h
            refine ⟨rfl, rfl, rfl, rfl, rfl, hA, hB, ?_⟩
            intro line hline
            obtain ⟨i, hi, rfl⟩ := List.mem_iff_getElem.mp hline
            have h1 : (first :: rest).getD i [] = (first :: rest)[i] := by
              rw [List.getD_eq_getElem?_getD, List.getElem?_eq_getElem hi]
              rfl
            have h2 := hcond i (List.mem_range.mpr hi)
            rw [h1] at h2
            have h3 : Maze.utf8Len ((first :: rest)[i]) =
                Maze.utf8Len first := by
              have hmem : (first :: rest)[i] ∈ first :: rest :=
                List.mem_iff_getElem.mpr ⟨i, hi, rfl⟩
              rcases List.mem_cons.mp hmem with heq | hmem
              · rw [heq]
              · simpa using List.all_eq_true.mp hall _ hmem
            have h4 := length_le_utf8Len ((first :: rest)[i])
            simp only [Maze.width]
            omega
      · exact absurd h (by simp [Maze.new, hall])

theorem maze_new_none {layout : List (List Char)} :
    Maze.new layout = none ↔ layout = [] ∨
      (∃ line ∈ layout,
        Maze.utf8Len line ≠ Maze.utf8Len (layout.headD [])) ∨
      ∃ line ∈ layout, line.length < Maze.utf8Len (layout.headD []) := by
  cases layout with
  | nil => simp [Maze.new]
  | cons first rest =>
      simp only [List.headD_cons]
      by_cases hall : rest.all fun line =>
          Maze.utf8Len line = Maze.utf8Len first
      · have hmis : ¬∃ line ∈ first :: rest,
            Maze.utf8Len line ≠ Maze.utf8Len first := by
          rintro ⟨line, hline, hne⟩
          rcases List.mem_cons.mp hline with rfl | hl
          · exact hne rfl
          · exact hne (by simpa using List.all_eq_true.mp hall line hl)
        by_cases hcond : ∀ y ∈ List.range (first :: rest).length,
            Maze.utf8Len first ≤ ((first :: rest).getD y []).length
        · have hA : (Maze.scan_rows (first :: rest) (Maze.utf8Len first)
              '@' (List.range (first :: rest).length)).isSome = true :=
            scan_rows_isSome.mpr hcond
          have hB : (Maze.scan_rows (first :: rest) (Maze.utf8Len first)
              '$' (List.range (first :: rest).length)).isSome = true :=
            scan_rows_isSome.mpr hcond
          obtain ⟨sp, hA'⟩ := Option.isSome_iff_exists.mp hA
          obtain ⟨ep, hB'⟩ := Option.isSome_iff_exists.mp hB
          have hA2 : Maze.scan_rows (first :: rest) (Maze.utf8Len first)
              '@' (List.range (rest.length + 1)) = some sp := hA'
          have hB2 : Maze.scan_rows (first :: rest) (Maze.utf8Len first)
              '$' (List.range (rest.length + 1)) = some ep := hB'
          have hnew : Maze.new (first :: rest) = some
              { layout := first :: rest, height := (first :: rest).length,
                width := Maze.utf8Len first, start_positions := sp,
                end_positions := ep, start_char := '@',
                end_char := '$' } := by
            simp [Maze.new, hall, Maze.find_character_in_layout, hA2, hB2]
          refine iff_of_false (by rw [hnew]; simp) ?_
          rintro (h | ⟨line, hline, hne⟩ | ⟨line, hline, hlt⟩)
          · exact List.noConfusion h
          · exact hmis ⟨line, hline, hne⟩
          · obtain ⟨i, hi, rfl⟩ := List.mem_iff_getElem.mp hline
            have h1 : (first :: rest).getD i [] = (first :: rest)[i] := by
              rw [List.getD_eq_getElem?_getD, List.getElem?_eq_getElem hi]
              rfl
            have h2 := hcond i (List.mem_range.mpr hi)
            rw [h1] at h2
            omega
        · push_neg at hcond
          obtain ⟨y, hy, hylen⟩ := hcond
          rw [List.mem_range] at hy
          have hA : Maze.scan_rows (first :: rest) (Maze.utf8Len first)
              '@' (List.range (first :: rest).length) = none := by
            rcases hA' : Maze.scan_rows (first :: rest)
                (Maze.utf8Len first) '@'
                (List.range (first :: rest).length) with _ | ps
            · rfl
            · have := scan_rows_isSome.mp (by rw [hA']; rfl) y
                (List.mem_range.mpr hy)
              omega
          have hA2 : Maze.scan_rows (first :: rest) (Maze.utf8Len first)
              '@' (List.range (rest.length + 1)) = none := hA
          have hnew : Maze.new (first :: rest) = none := by
            simp [Maze.new, hall, Maze.find_character_in_layout, hA2]
          refine iff_of_true hnew (Or.inr (Or.inr ?_))
          have h1 : (first :: rest).getD y [] = (first :: rest)[y] := by
            rw [List.getD_eq_getElem?_getD, List.getElem?_eq_getElem hy]
            rfl
          refine ⟨(first :: rest)[y], List.mem_iff_getElem.mpr
            ⟨y, hy, rfl⟩, ?_⟩
          rw [← h1]
          omega
      · simp only [Maze.new, if_neg hall]
        refine iff_of_true trivial (Or.inr (Or.inl ?_))
        rw [List.all_eq_true] at hall
        push_neg at hall
        obtain ⟨line, hl, hne⟩ := hall
        exact ⟨line, List.mem_cons_of_mem _ hl, by simpa using hne⟩

/-! Claims about the maze constructor (C7). -/

/-- Counterexample to claim C7: on the one-line layout whose single
character is the three-byte block glyph, construction fails although the
layout has a line and no line's length differs from the first line's (there
is only one line): the source asserts byte lengths but indexes every row by
characters up to the byte-length width, so the marker scan reads past the
row's only character and panics. A second layout with equal character
counts but unequal byte lengths fails as well, on the byte-length
assertion itself. -/
theorem maze_new_fails_beyond_claimed_conditions :
    Maze.new [['█']] = none ∧
      ¬([['█']] = [] ∨
        ∃ line ∈ [['█']], line.length ≠ ([['█']].headD []).length) ∧
      Maze.new [['█', '@'], ['a', '$']] = none ∧
      ['█', '@'].length = ['a', '$'].length :=
  ⟨rfl, by decide, rfl, rfl⟩

/-- Claim C7 (amended): Maze::new fails exactly when the layout has zero
lines, or some line's UTF-8 byte length differs from the first line's byte
length (the assertions of the source compare String::len), or some line has
fewer characters than the first line's byte length (the marker scan indexes
every row by characters up to that byte-length width and then panics); the
failure is modelled by the none result, so no partially constructed maze is
observable. On success the maze records the layout, its height, the first
line's byte length as its width, with every line then holding exactly width
characters, and exactly the packed coordinates of the cells bearing the
start marker and of those bearing the end marker. -/
theorem maze_new_correct (layout : List (List Char)) :
    (Maze.new layout = none ↔ layout = [] ∨
      (∃ line ∈ layout,
        Maze.utf8Len line ≠ Maze.utf8Len (layout.headD [])) ∨
      ∃ line ∈ layout, line.length < Maze.utf8Len (layout.headD [])) ∧
    ∀ m, Maze.new layout = some m →
      m.layout = layout ∧ m.height = layout.length ∧
        m.width = Maze.utf8Len (layout.headD []) ∧
        m.start_char = '@' ∧ m.end_char = '$' ∧
        (∀ line ∈ layout, line.length = m.width) ∧
        (∀ p, p ∈ m.start_positions ↔ ∃ y x, y < layout.length ∧
          x < Maze.utf8Len (layout.headD []) ∧
          Maze.charAt layout y x = '@' ∧
          p = Maze.coordinates_to_position y x) ∧
        ∀ p, p ∈ m.end_positions ↔ ∃ y x, y < layout.length ∧
          x < Maze.utf8Len (layout.headD []) ∧
          Maze.charAt layout y x = '$' ∧
          p = Maze.coordinates_to_position y x := by
  refine ⟨maze_new_none, ?_⟩
  intro m hm
  obtain ⟨hl, hh, hw, hs, he, hfs, hfe, hlen⟩ := maze_new_spec hm
  have hmem : ∀ (ch : Char) (ps : List Nat),
      Maze.find_character_in_layout layout m.width m.height ch = some ps →
      ∀ p, p ∈ ps ↔ ∃ y x, y < layout.length ∧
        x < Maze.utf8Len (layout.headD []) ∧ Maze.charAt layout y x = ch ∧
        p = Maze.coordinates_to_position y x := by
    intro ch ps hps p
    rw [Maze.find_character_in_layout] at hps
    rw [scan_rows_mem hps]
    constructor
    · rintro ⟨y, hy, x, hx, hget, rfl⟩
      rw [List.mem_range, hh] at hy
      refine ⟨y, x, hy, hw ▸ hx, ?_, rfl⟩
      rw [Maze.charAt, List.getD_eq_getElem?_getD, hget]
      rfl
    · rintro ⟨y, x, hy, hx, hch, rfl⟩
      refine ⟨y, List.mem_range.mpr (hh ▸ hy), x, hw ▸ hx, ?_, rfl⟩
      have hline : layout.getD y [] ∈ layout := by
        have hyl : y < layout.length := hy
        refine List.mem_iff_getElem.mpr ⟨y, hyl, ?_⟩
        rw [List.getD_eq_getElem?_getD, List.getElem?_eq_getElem hyl]
        rfl
      have hlineq : (layout.getD y []).length = m.width := hlen _ hline
      have hxlen : x < (layout.getD y []).length := by
        rw [hlineq, hw]
        exact hx
      rw [List.getElem?_eq_getElem hxlen]
      rw [Maze.charAt, List.getD_eq_getElem?_getD,
        List.getElem?_eq_getElem hxlen] at hch
      exact congrArg some hch
  exact ⟨hl, hh, hw, hs, he, fun line hline => hw ▸ hlen line hline,
    hmem '@' m.start_positions hfs, hmem '$' m.end_positions hfe⟩

/-- Witness for the amended C7: the constructor rejects a two-line layout
whose second line is one byte shorter, accepts a rectangular ASCII layout,
and the accepted maze records exactly the start marker cell (0, 0), here
applied at the packed position 0. -/
theorem maze_new_correct_witness :
    Maze.new [['@', ' '], [' ']] = none ∧
      Maze.new [['@', ' '], [' ', '$']] =
        some { layout := [['@', ' '], [' ', '$']], height := 2, width := 2,
               start_positions := [0], end_positions := [4294967297],
               start_char := '@', end_char := '$' } ∧
      ((0 : Nat) ∈ [(0 : Nat)] ↔ ∃ y x,
        y < ([['@', ' '], [' ', '$']] : List (List Char)).length ∧
        x < Maze.utf8Len
          (([['@', ' '], [' ', '$']] : List (List Char)).headD []) ∧
        Maze.charAt [['@', ' '], [' ', '$']] y x = '@' ∧
        (0 : Nat) = Maze.coordinates_to_position y x) :=
  ⟨(maze_new_correct [['@', ' '], [' ']]).1.mpr
      (Or.inr (Or.inl ⟨[' '], by decide, by decide⟩)),
    rfl,
    ((maze_new_correct [['@', ' '], [' ', '$']]).2 _
      rfl).2.2.2.2.2.2.1 0⟩

/-! Claim about the maze neighbor query (C6). -/

/-- Claim C6: for a maze built by Maze.new whose dimensions fit in u32 and an
in-bounds cell (r, c), the neighbor query returns exactly the packed
positions of those of the four axis-aligned adjacent cells (up, down, left,
right) that lie inside the grid and hold a passable character (blank, the
start marker or the end marker), each at edge weight 1; no other pair, and
in particular no diagonal cell, is returned. -/
theorem maze_neighbors_exact (layout : List (List Char)) (m : Maze)
    (hm : Maze.new layout = some m) (hh : m.height < 2 ^ 32)
    (hw : m.width < 2 ^ 32) (r c : Nat) (hr : r < m.height)
    (hc : c < m.width) (q : Nat) (wt : Int) :
    (q, wt) ∈ m.list_neighbors_and_distances
        (Maze.coordinates_to_position r c) ↔
      wt = 1 ∧ ∃ r' c', q = Maze.coordinates_to_position r' c' ∧
        r' < m.height ∧ c' < m.width ∧
        ((r' = r ∧ (c' = c + 1 ∨ c' + 1 = c)) ∨
          (c' = c ∧ (r' = r + 1 ∨ r' + 1 = r))) ∧
        Maze.charAt m.layout r' c' ∈ [' ', '@', '$'] := by
  obtain ⟨hlay, hhe, hwi, hsc, hec, _, _, _⟩ := maze_new_spec hm
  have hr32 : r < 2 ^ 32 := lt_trans hr hh
  have hc32 : c < 2 ^ 32 := lt_trans hc hw
  have hr132 : r + 1 < 2 ^ 32 := lt_of_le_of_lt hr hh
  have hc132 : c + 1 < 2 ^ 32 := lt_of_le_of_lt hc hw
  have mem_ite : ∀ (P : Prop) (inst : Decidable P) (x cand : Nat × Int),
      (x ∈ if P then [cand] else []) ↔ P ∧ x = cand := by
    intro P inst x cand
    by_cases hP : P <;> simp [hP]
  simp only [Maze.list_neighbors_and_distances, unpack_pack hr32 hc32,
    hsc, hec, List.mem_filter, List.mem_append, mem_ite,
    List.mem_singleton, Bool.and_eq_true, decide_eq_true_eq]
  constructor
  · rintro ⟨hcand, ⟨hb1, hb2⟩, hb3⟩
    have hb3' : Maze.charAt m.layout (Maze.position_to_coordinates q).1
        (Maze.position_to_coordinates q).2 ∈ [' ', '@', '$'] :=
      List.elem_iff.mp hb3
    rcases hcand with (((⟨h0r, heq⟩ | heq) | ⟨h0c, heq⟩) | heq) <;>
      rw [Prod.mk.injEq] at heq <;> obtain ⟨rfl, rfl⟩ := heq <;>
      refine ⟨rfl, ?_⟩
    · have hu := unpack_pack (show r - 1 < 2 ^ 32 by omega) hc32
      rw [hu] at hb1 hb2 hb3'
      exact ⟨r - 1, c, rfl, hb1, hb2,
        Or.inr ⟨rfl, Or.inr (by omega)⟩, hb3'⟩
    · have hu := unpack_pack hr132 hc32
      rw [hu] at hb1 hb2 hb3'
      exact ⟨r + 1, c, rfl, hb1, hb2, Or.inr ⟨rfl, Or.inl rfl⟩, hb3'⟩
    · have hu := unpack_pack hr32 (show c - 1 < 2 ^ 32 by omega)
      rw [hu] at hb1 hb2 hb3'
      exact ⟨r, c - 1, rfl, hb1, hb2,
        Or.inl ⟨rfl, Or.inr (by omega)⟩, hb3'⟩
    · have hu := unpack_pack hr32 hc132
      rw [hu] at hb1 hb2 hb3'
      exact ⟨r, c + 1, rfl, hb1, hb2, Or.inl ⟨rfl, Or.inl rfl⟩, hb3'⟩
  · rintro ⟨rfl, r', c', rfl, hr', hc', hadj, hchar⟩
    have hr'32 : r' < 2 ^ 32 := lt_trans hr' hh
    have hc'32 : c' < 2 ^ 32 := lt_trans hc' hw
    have hu := unpack_pack hr'32 hc'32
    have hside : ((Maze.position_to_coordinates
          (Maze.coordinates_to_position r' c')).1 < m.height ∧
        (Maze.position_to_coordinates
          (Maze.coordinates_to_position r' c')).2 < m.width) ∧
        List.elem (Maze.charAt m.layout
          (Maze.position_to_coordinates
            (Maze.coordinates_to_position r' c')).1
          (Maze.position_to_coordinates
            (Maze.coordinates_to_position r' c')).2)
          [' ', '@', '$'] = true := by
      rw [hu]
      exact ⟨⟨hr', hc'⟩, List.elem_iff.mpr hchar⟩
    refine ⟨?_, hside⟩
    rcases hadj with ⟨rfl, hcc | hcc⟩ | ⟨rfl, hrr | hrr⟩
    · right
      rw [hcc]
    · left; right
      refine ⟨by omega, ?_⟩
      rw [show c - 1 = c' by omega]
    · left; left; right
      rw [hrr]
    · left; left; left
      refine ⟨by omega, ?_⟩
      rw [show r - 1 = r' by omega]

/-- Witness for C6: in the 2 by 2 maze with start at (0, 0) and end at
(1, 1), the neighbor query at cell (0, 0) contains the cell to its right and
does not contain the diagonal end cell. -/
theorem maze_neighbors_exact_witness :
    Maze.new [['@', ' '], [' ', '$']] =
      some { layout := [['@', ' '], [' ', '$']], height := 2, width := 2,
             start_positions := [0], end_positions := [4294967297],
             start_char := '@', end_char := '$' } ∧
    ((Maze.coordinates_to_position 0 1, (1 : Int)) ∈
      Maze.list_neighbors_and_distances
        { layout := [['@', ' '], [' ', '$']], height := 2, width := 2,
          start_positions := [0], end_positions := [4294967297],
          start_char := '@', end_char := '$' }
        (Maze.coordinates_to_position 0 0) ↔
      (1 : Int) = 1 ∧ ∃ r' c',
        Maze.coordinates_to_position 0 1 =
          Maze.coordinates_to_position r' c' ∧
        r' < 2 ∧ c' < 2 ∧
        ((r' = 0 ∧ (c' = 0 + 1 ∨ c' + 1 = 0)) ∨
          (c' = 0 ∧ (r' = 0 + 1 ∨ r' + 1 = 0))) ∧
        Maze.charAt [['@', ' '], [' ', '$']] r' c' ∈ [' ', '@', '$']) :=
  ⟨rfl,
    maze_neighbors_exact [['@', ' '], [' ', '$']] _ rfl (by decide)
      (by decide) 0 0 (by decide) (by decide)
      (Maze.coordinates_to_position 0 1) 1⟩

/-! Claims about iteration-order sensitivity (C2 and C9). -/

/-- Counterexample to claim C2: with the unspecified frontier iteration order
made explicit, two runs of the solver on the same graph, the same sources
and the same targets, differing only in the iteration order of the frontier
entries, return different distance maps and different reached targets; the
identity order reproduces solve_dijkstra exactly. -/
theorem solve_dijkstra_order_dependent :
    solve_dijkstraWith (fun _ l => l) exGraph [0] [1, 2] 5 =
        solve_dijkstra exGraph [0] [1, 2] 5 ∧
      solve_dijkstraWith (fun _ l => l) exGraph [0] [1, 2] 5 =
        some ([(0, 0), (1, 1)], [(1, 0), (2, 0)], some 1) ∧
      solve_dijkstraWith (fun _ l => l.reverse) exGraph [0] [1, 2] 5 =
        some ([(0, 0), (2, 1)], [(1, 0), (2, 0)], some 2) ∧
      solve_dijkstraWith (fun _ l => l) exGraph [0] [1, 2] 5 ≠
        solve_dijkstraWith (fun _ l => l.reverse) exGraph [0] [1, 2] 5 :=
  ⟨rfl, rfl, rfl, by decide⟩

/-- Claim C2 (amended): for a fixed iteration order the frontier
minimum-extraction is deterministic and resolves ties to the first entry
encountered: the entry returned by find_min_key_value_pair attains the
minimum value and every entry before it in iteration order is strictly
larger. -/
theorem find_min_resolves_ties_to_first {S : Type} [DecidableEq S]
    {l : List (S × Int)} {kv : S × Int}
    (h : find_min_key_value_pair l = some kv) :
    ∃ l1 l2, l = l1 ++ kv :: l2 ∧ (∀ p ∈ l, kv.2 ≤ p.2) ∧
      ∀ p ∈ l1, kv.2 < p.2 := by
  cases l with
  | nil => exact absurd h (by simp [find_min_key_value_pair])
  | cons a rest =>
      simp only [find_min_key_value_pair, Option.some.injEq] at h
      subst h
      obtain ⟨l1, l2, hsplit, hlt⟩ := fmAux_first_min rest a
      exact ⟨l1, l2, hsplit, find_min_le (l := a :: rest) rfl, hlt⟩

/-- Witness for the amended C2: on a frontier whose minimum value 3 is
attained twice, the scan returns the earlier entry, key 1. -/
theorem find_min_resolves_ties_to_first_witness :
    find_min_key_value_pair [((0 : Nat), (5 : Int)), (1, 3), (2, 3)] =
        some (1, 3) ∧
      ∃ l1 l2, [((0 : Nat), (5 : Int)), (1, 3), (2, 3)] =
          l1 ++ (1, 3) :: l2 ∧
        (∀ p ∈ [((0 : Nat), (5 : Int)), (1, 3), (2, 3)], (3 : Int) ≤ p.2) ∧
        ∀ p ∈ l1, (3 : Int) < p.2 :=
  ⟨rfl, find_min_resolves_ties_to_first rfl⟩

/-- Claim C9 (amended): a single relaxation pass behaves identically, as a
map from keys to frontier distances and to predecessors, under any
permutation of the neighbor list; the whole run is not invariant, because
the order in which new frontier entries are appended feeds the tie-break of
the later minimum scans. -/
theorem relax_neighbors_order_irrelevant {S : Type} [DecidableEq S]
    (vertex : S) (d : Int) (processed : List (S × Int))
    {ns ns' : List (S × Int)} (hperm : ns.Perm ns')
    (current : List (S × Int)) (predecessors : List (S × S)) :
    (∀ k, alookup
        (relax_neighbors vertex d processed ns current predecessors).1 k =
      alookup
        (relax_neighbors vertex d processed ns' current predecessors).1 k) ∧
    ∀ k, alookup
        (relax_neighbors vertex d processed ns current predecessors).2 k =
      alookup
        (relax_neighbors vertex d processed ns' current predecessors).2 k := by
  constructor
  · intro k
    rw [relax_current_lookup, relax_current_lookup, offerMin_perm hperm]
  · intro k
    rw [relax_pred_lookup, relax_pred_lookup, offerMin_perm hperm]

/-- Witness for the amended C9: one relaxation pass from vertex 0 over the two
orderings of the neighbor list of exGraph agrees at key 1 in both returned
maps. -/
theorem relax_neighbors_order_irrelevant_witness :
    (exGraph 0).Perm (exGraphSwapped 0) ∧
      alookup (relax_neighbors 0 0 [((0 : Nat), (0 : Int))] (exGraph 0)
          [] []).1 1 =
        alookup (relax_neighbors 0 0 [((0 : Nat), (0 : Int))]
          (exGraphSwapped 0) [] []).1 1 ∧
      alookup (relax_neighbors 0 0 [((0 : Nat), (0 : Int))] (exGraph 0)
          [] []).2 1 =
        alookup (relax_neighbors 0 0 [((0 : Nat), (0 : Int))]
          (exGraphSwapped 0) [] []).2 1 :=
  ⟨List.Perm.swap (2, 1) (1, 1) [],
    (relax_neighbors_order_irrelevant 0 0 [((0 : Nat), (0 : Int))]
      (List.Perm.swap (2, 1) (1, 1) []) [] []).1 1,
    (relax_neighbors_order_irrelevant 0 0 [((0 : Nat), (0 : Int))]
      (List.Perm.swap (2, 1) (1, 1) []) [] []).2 1⟩

/-- Counterexample to claim C9: the two graphs differ only in the order of the
neighbor list of vertex 0 (a permutation; every other vertex has an identical
list), yet solve_dijkstra returns different distance maps and different
reached targets. -/
theorem solve_dijkstra_neighbor_order_dependent :
    (exGraph 0).Perm (exGraphSwapped 0) ∧
      exGraph 1 = exGraphSwapped 1 ∧ exGraph 2 = exGraphSwapped 2 ∧
      solve_dijkstra exGraph [0] [1, 2] 5 =
        some ([(0, 0), (1, 1)], [(1, 0), (2, 0)], some 1) ∧
      solve_dijkstra exGraphSwapped [0] [1, 2] 5 =
        some ([(0, 0), (2, 1)], [(2, 0), (1, 0)], some 2) ∧
      solve_dijkstra exGraph [0] [1, 2] 5 ≠
        solve_dijkstra exGraphSwapped [0] [1, 2] 5 :=
  ⟨List.Perm.swap (2, 1) (1, 1) [], rfl, rfl, rfl, rfl, by decide⟩

/-! Engine loop invariant development. -/

theorem exists_of_mem_keysOf {A : Type} {l : List (S × A)} {k : S}
    (h : k ∈ keysOf l) : ∃ v, (k, v) ∈ l := by
  obtain ⟨⟨k', v⟩, hm, rfl⟩ := List.mem_map.mp h
  exact ⟨v, hm⟩

theorem seed_foldl_lookup (starts : List S) (init : List (S × Int)) (k : S) :
    alookup (starts.foldl (fun c v => ainsert c v 0) init) k =
      if k ∈ starts then some 0 else alookup init k := by
  induction starts generalizing init with
  | nil => simp
  | cons s rest ih =>
      simp only [List.foldl_cons, ih, alookup_ainsert, List.mem_cons]
      by_cases hk : k ∈ rest
      · simp [hk]
      · by_cases hks : k = s <;> simp [hk, hks]

theorem seed_lookup (starts : List S) (k : S) :
    alookup (seed_starts starts) k =
      if k ∈ starts then some 0 else none := by
  rw [seed_starts, seed_foldl_lookup]
  rfl

theorem seed_nodup (starts : List S) :
    (keysOf (seed_starts starts)).Nodup := by
  have haux : ∀ (l : List S) (init : List (S × Int)), (keysOf init).Nodup →
      (keysOf (l.foldl (fun c v => ainsert c v 0) init)).Nodup := by
    intro l
    induction l with
    | nil => intro init h; simpa using h
    | cons s rest ih =>
        intro init h
        exact ih _ (nodup_keysOf_ainsert h)
  exact haux starts [] (by simp [keysOf])

theorem PredChain.mono {pred pred' : List (S × S)} {starts dom dom' : List S}
    {x : S} (h : PredChain pred starts dom x)
    (hdom : ∀ y ∈ dom, y ∈ dom')
    (hfroz : ∀ y ∈ dom, alookup pred' y = alookup pred y) :
    PredChain pred' starts dom' x := by
  induction h with
  | base hx hlk hs =>
      exact PredChain.base (hdom _ hx) ((hfroz _ hx).trans hlk) hs
  | step hx hlk _ ih =>
      exact PredChain.step (hdom _ hx) ((hfroz _ hx).trans hlk) ih

theorem relax_pred_from (vertex : S) (d : Int)
    (processed ns current : List (S × Int)) (predecessors : List (S × S))
    (x : S) :
    alookup (relax_neighbors vertex d processed ns current
        predecessors).2 x = alookup predecessors x ∨
      alookup (relax_neighbors vertex d processed ns current
        predecessors).2 x = some vertex := by
  rw [relax_pred_lookup]
  by_cases hp : (alookup processed x).isSome
  · simp [hp]
  · simp only [hp, if_false, Bool.false_eq_true]
    rcases alookup current x with _ | cd <;>
      rcases offerMin d ns x with _ | m
    · exact Or.inl rfl
    · exact Or.inr rfl
    · exact Or.inl rfl
    · by_cases hlt : m < cd <;> simp [hlt]

theorem dijkstra_initial_lite (targets starts : List S) :
    DijkstraInvLite targets (seed_starts starts) [] [] := by
  refine ⟨seed_nodup starts, by simp [keysOf], ?_, ?_, ?_⟩
  · intro k hk
    simp [keysOf] at hk
  · intro k hk
    simp [keysOf] at hk
  · intro x v hx
    simp [alookup] at hx

theorem dijkstra_initial (g : S → List (S × Int)) (starts targets : List S) :
    DijkstraInv g starts targets (seed_starts starts) [] [] := by
  refine ⟨dijkstra_initial_lite targets starts, ?_, ?_, ?_, ?_, ?_, ?_, ?_⟩
  · intro v d hv
    simp at hv
  · intro v d hv
    rw [seed_lookup] at hv
    by_cases hm : v ∈ starts
    · rw [if_pos hm] at hv
      exact ⟨v, hm, [], IsPath.nil v, by simp [pathCost, ← Option.some.injEq,
        hv]⟩
    · rw [if_neg hm] at hv
      exact Option.noConfusion hv
  · intro s hs
    exact Or.inr ⟨0, by rw [seed_lookup, if_pos hs], le_refl 0⟩
  · intro u du hu
    simp at hu
  · intro x hx
    obtain ⟨v, hv⟩ := exists_of_mem_keysOf hx
    by_cases hm : x ∈ starts
    · exact Or.inl hm
    · exact absurd (mem_alookup (seed_nodup starts) hv)
        (by rw [seed_lookup, if_neg hm]; exact fun h => Option.noConfusion h)
  · intro s hs hk
    simp [keysOf] at hk
  · intro x hx
    simp [keysOf] at hx

theorem min_le_path_cost {g : S → List (S × Int)} {starts targets : List S}
    {current processed : List (S × Int)} {predecessors : List (S × S)}
    (inv : DijkstraInv g starts targets current processed predecessors)
    (hn : NonNegWeights g) {dm : Int}
    (hmin : ∀ q e, alookup current q = some e → dm ≤ e)
    {p : List (S × Int)} {u v : S} (hp : IsPath g u p v) :
    ∀ b : Int, v ∉ keysOf processed →
      ((u ∈ starts ∧ 0 ≤ b) ∨ ∃ du, (u, du) ∈ processed ∧ du ≤ b) →
      dm ≤ b + pathCost p := by
  induction hp with
  | nil u0 =>
      intro b hv hcred
      rcases hcred with ⟨hus, hb⟩ | ⟨du, hmem, _⟩
      · rcases inv.starts_cover u0 hus with hP | ⟨cs, hlk, hcs⟩
        · exact absurd hP hv
        · have := hmin u0 cs hlk
          rw [pathCost_nil]
          omega
      · exact absurd (mem_keysOf hmem) hv
  | cons hedge hp' ih =>
      rename_i u v1 t w1 rest
      intro b ht hcred
      have hw1 : 0 ≤ w1 := hn _ _ _ hedge
      have hrest : 0 ≤ pathCost rest := hp'.cost_nonneg hn
      rw [pathCost_cons]
      have hstep : (∃ du, (u, du) ∈ processed ∧ du ≤ b) → dm ≤ b + (w1 + pathCost rest) := by
        rintro ⟨du, hmem, hdub⟩
        rcases inv.relax_closed u du hmem v1 w1 hedge with hv1P | ⟨cv, hlkv, hlev⟩
        · obtain ⟨dv1, hmemv1⟩ := exists_of_mem_keysOf hv1P
          have htri : dv1 ≤ du + w1 :=
            ShortestFrom.triangle (inv.proc_shortest u du hmem)
              (inv.proc_shortest v1 dv1 hmemv1) hedge
          have := ih (b + w1) ht (Or.inr ⟨dv1, hmemv1, by omega⟩)
          omega
        · have := hmin v1 cv hlkv
          omega
      rcases hcred with ⟨hus, hb⟩ | hright
      · by_cases hu : u ∈ keysOf processed
        · obtain ⟨du, hmem⟩ := exists_of_mem_keysOf hu
          have hdu0 : du ≤ 0 :=
            (inv.proc_shortest u du hmem).2 u hus [] (IsPath.nil u)
          exact hstep ⟨du, hmem, by omega⟩
        · rcases inv.starts_cover u hus with hP | ⟨cs, hlk, hcs⟩
          · exact absurd hP hu
          · have := hmin u cs hlk
            omega
      · exact hstep hright

theorem extracted_shortest {g : S → List (S × Int)} {starts targets : List S}
    {current processed : List (S × Int)} {predecessors : List (S × S)}
    (inv : DijkstraInv g starts targets current processed predecessors)
    (hn : NonNegWeights g) {vm : S} {dm : Int}
    (hfind : find_min_key_value_pair current = some (vm, dm)) :
    ShortestFrom g starts vm dm := by
  have hmemC : (vm, dm) ∈ current := find_min_mem hfind
  have hlkC : alookup current vm = some dm :=
    mem_alookup inv.nodup_cur hmemC
  have hvmP : vm ∉ keysOf processed :=
    fun h => inv.disj vm h (mem_keysOf hmemC)
  have hmin : ∀ q e, alookup current q = some e → dm ≤ e :=
    fun q e h => find_min_le hfind _ (alookup_mem h)
  refine ⟨inv.cur_reach vm dm hlkC, ?_⟩
  intro s hs p hp
  have := min_le_path_cost inv hn hmin hp 0 hvmP (Or.inl ⟨hs, le_refl 0⟩)
  omega

theorem dijkstra_step_lite {targets : List S}
    {current processed : List (S × Int)} {predecessors : List (S × S)}
    (inv : DijkstraInvLite targets current processed predecessors)
    (g : S → List (S × Int)) {vm : S} {dm : Int}
    (hfind : find_min_key_value_pair current = some (vm, dm))
    (htarget : vm ∉ targets) :
    DijkstraInvLite targets
      (relax_neighbors vm dm (ainsert processed vm dm) (g vm)
        (aremove current vm) predecessors).1
      (ainsert processed vm dm)
      (relax_neighbors vm dm (ainsert processed vm dm) (g vm)
        (aremove current vm) predecessors).2 := by
  have hmemC : (vm, dm) ∈ current := find_min_mem hfind
  have hvmP : vm ∉ keysOf processed :=
    fun h => inv.disj vm h (mem_keysOf hmemC)
  constructor
  · exact relax_nodup_cur _ _ _ _ _ _ (nodup_keysOf_aremove inv.nodup_cur)
  · exact nodup_keysOf_ainsert inv.nodup_proc
  · intro k hk hkC
    rw [← alookup_isSome_iff, relax_current_lookup,
      if_pos (alookup_isSome_iff.mpr hk), alookup_aremove] at hkC
    by_cases hkvm : k = vm
    · rw [if_pos hkvm] at hkC
      simp at hkC
    · rw [if_neg hkvm] at hkC
      rcases mem_keysOf_ainsert.mp hk with hkP | h
      · rw [alookup_eq_none.mpr (inv.disj k hkP)] at hkC
        simp at hkC
      · exact hkvm h
  · intro k hk
    rcases mem_keysOf_ainsert.mp hk with hkP | rfl
    · exact inv.proc_no_target k hkP
    · exact htarget
  · intro x v hx
    rcases relax_pred_from vm dm (ainsert processed vm dm) (g vm)
        (aremove current vm) predecessors x with hold | hvm
    · rw [hold] at hx
      exact mem_keysOf_ainsert.mpr (Or.inl (inv.pred_proc x v hx))
    · rw [hvm] at hx
      obtain rfl : vm = v := (Option.some.injEq _ _).mp hx
      exact mem_keysOf_ainsert.mpr (Or.inr rfl)

theorem dijkstra_step {g : S → List (S × Int)} {starts targets : List S}
    {current processed : List (S × Int)} {predecessors : List (S × S)}
    (inv : DijkstraInv g starts targets current processed predecessors)
    (hn : NonNegWeights g) {vm : S} {dm : Int}
    (hfind : find_min_key_value_pair current = some (vm, dm))
    (htarget : vm ∉ targets) :
    DijkstraInv g starts targets
      (relax_neighbors vm dm (ainsert processed vm dm) (g vm)
        (aremove current vm) predecessors).1
      (ainsert processed vm dm)
      (relax_neighbors vm dm (ainsert processed vm dm) (g vm)
        (aremove current vm) predecessors).2 := by
  have hmemC : (vm, dm) ∈ current := find_min_mem hfind
  have hlkC : alookup current vm = some dm :=
    mem_alookup inv.nodup_cur hmemC
  have hvmP : vm ∉ keysOf processed :=
    fun h => inv.disj vm h (mem_keysOf hmemC)
  have hshort : ShortestFrom g starts vm dm := extracted_shortest inv hn hfind
  have hdm0 : 0 ≤ dm := hshort.nonneg hn
  have hP'mem : ∀ {v : S} {d : Int}, (v, d) ∈ ainsert processed vm dm ↔
      (v, d) ∈ processed ∨ (v = vm ∧ d = dm) := by
    intro v d
    rw [ainsert_of_not_mem hvmP]
    simp [Prod.mk.injEq]
  have hoffer_path : ∀ {v : S} {m : Int}, offerMin dm (g vm) v = some m →
      ∃ s ∈ starts, ∃ p, IsPath g s p v ∧ pathCost p = m := by
    intro v m hov
    obtain ⟨w, hw, rfl⟩ := offerMin_mem hov
    obtain ⟨s, hs, p, hp, hpc⟩ := inv.cur_reach vm dm hlkC
    refine ⟨s, hs, p ++ [(v, w)], hp.append (IsPath.cons hw (IsPath.nil v)),
      ?_⟩
    rw [pathCost_append, pathCost_cons, pathCost_nil, hpc]
    omega
  refine ⟨dijkstra_step_lite inv.toDijkstraInvLite g hfind htarget,
    ?_, ?_, ?_, ?_, ?_, ?_, ?_⟩
  · intro v d hv
    rcases hP'mem.mp hv with hvP | ⟨rfl, rfl⟩
    · exact inv.proc_shortest v d hvP
    · exact hshort
  · intro v d hv
    rw [relax_current_lookup] at hv
    by_cases hvP' : (alookup (ainsert processed vm dm) v).isSome
    · rw [if_pos hvP', alookup_aremove] at hv
      by_cases hvvm : v = vm
      · rw [if_pos hvvm] at hv
        exact Option.noConfusion hv
      · rw [if_neg hvvm] at hv
        exact inv.cur_reach v d hv
    · rw [if_neg hvP'] at hv
      rcases hcv : alookup (aremove current vm) v with _ | cd <;>
        rcases hov : offerMin dm (g vm) v with _ | m <;>
          rw [hcv, hov] at hv
      · exact Option.noConfusion hv
      · obtain rfl : m = d := (Option.some.injEq _ _).mp hv
        exact hoffer_path hov
      · obtain rfl : cd = d := (Option.some.injEq _ _).mp hv
        rw [alookup_aremove] at hcv
        by_cases hvvm : v = vm
        · rw [if_pos hvvm] at hcv
          exact Option.noConfusion hcv
        · rw [if_neg hvvm] at hcv
          exact inv.cur_reach v cd hcv
      · obtain rfl : min cd m = d := (Option.some.injEq _ _).mp hv
        rw [alookup_aremove] at hcv
        by_cases hvvm : v = vm
        · rw [if_pos hvvm] at hcv
          exact Option.noConfusion hcv
        · rw [if_neg hvvm] at hcv
          rcases le_total cd m with hcm | hcm
          · rw [min_eq_left hcm]
            exact inv.cur_reach v cd hcv
          · rw [min_eq_right hcm]
            exact hoffer_path hov
  · intro s hs
    by_cases hsP' : s ∈ keysOf (ainsert processed vm dm)
    · exact Or.inl hsP'
    · have hsplit := fun h => hsP' (mem_keysOf_ainsert.mpr h)
      have hsP : s ∉ keysOf processed := fun h => hsplit (Or.inl h)
      have hsvm : s ≠ vm := fun h => hsplit (Or.inr h)
      rcases inv.starts_cover s hs with hP | ⟨cs, hlk, hcs⟩
      · exact absurd hP hsP
      · right
        rw [relax_current_lookup,
          if_neg (fun h => hsP' (alookup_isSome_iff.mp h)),
          alookup_aremove, if_neg hsvm, hlk]
        rcases hov : offerMin dm (g vm) s with _ | m
        · exact ⟨cs, rfl, hcs⟩
        · exact ⟨min cs m, rfl, le_trans (min_le_left _ _) hcs⟩
  · intro u du hu v w hedge
    by_cases hvP' : v ∈ keysOf (ainsert processed vm dm)
    · exact Or.inl hvP'
    · have hvvm : v ≠ vm := fun h => hvP' (mem_keysOf_ainsert.mpr (Or.inr h))
      right
      rw [relax_current_lookup,
        if_neg (fun h => hvP' (alookup_isSome_iff.mp h)),
        alookup_aremove, if_neg hvvm]
      rcases hP'mem.mp hu with huP | ⟨hueq, hdueq⟩
      · rcases inv.relax_closed u du huP v w hedge with hvP | ⟨cv, hlkv, hlev⟩
        · exact absurd (mem_keysOf_ainsert.mpr (Or.inl hvP)) hvP'
        · rw [hlkv]
          rcases hov : offerMin dm (g vm) v with _ | m
          · exact ⟨cv, rfl, hlev⟩
          · exact ⟨min cv m, rfl, le_trans (min_le_left _ _) hlev⟩
      · rw [hdueq]
        rw [hueq] at hedge
        obtain ⟨m, hov, hmle⟩ := offerMin_le dm hedge
        rw [hov]
        rcases hlkv : alookup current v with _ | cv
        · exact ⟨m, rfl, hmle⟩
        · exact ⟨min cv m, rfl, le_trans (min_le_right _ _) hmle⟩
  · intro x hx
    have hpredkeys : x ∈ keysOf predecessors →
        x ∈ keysOf (relax_neighbors vm dm (ainsert processed vm dm) (g vm)
          (aremove current vm) predecessors).2 := by
      intro hxp
      rw [← alookup_isSome_iff] at hxp ⊢
      rcases relax_pred_from vm dm (ainsert processed vm dm) (g vm)
          (aremove current vm) predecessors x with hold | hsome
      · rw [hold]
        exact hxp
      · rw [hsome]
        rfl
    have holdkey : x ∈ keysOf current → x ∈ starts ∨
        x ∈ keysOf (relax_neighbors vm dm (ainsert processed vm dm) (g vm)
          (aremove current vm) predecessors).2 := fun hxc =>
      (inv.pred_cover x hxc).imp id hpredkeys
    rw [← alookup_isSome_iff, relax_current_lookup] at hx
    by_cases hxP' : (alookup (ainsert processed vm dm) x).isSome
    · rw [if_pos hxP', alookup_aremove] at hx
      by_cases hxvm : x = vm
      · rw [if_pos hxvm] at hx
        simp at hx
      · rw [if_neg hxvm] at hx
        exact holdkey (alookup_isSome_iff.mp hx)
    · rw [if_neg hxP'] at hx
      rcases hcv : alookup (aremove current vm) x with _ | cd <;>
        rcases hov : offerMin dm (g vm) x with _ | m <;>
          rw [hcv, hov] at hx
      · simp at hx
      · right
        rw [← alookup_isSome_iff, relax_pred_lookup, if_neg hxP', hcv, hov]
        rfl
      · rw [alookup_aremove] at hcv
        by_cases hxvm : x = vm
        · rw [if_pos hxvm] at hcv
          exact Option.noConfusion hcv
        · rw [if_neg hxvm] at hcv
          exact holdkey (alookup_isSome_iff.mp (by rw [hcv]; rfl))
      · rw [alookup_aremove] at hcv
        by_cases hxvm : x = vm
        · rw [if_pos hxvm] at hcv
          exact Option.noConfusion hcv
        · rw [if_neg hxvm] at hcv
          exact holdkey (alookup_isSome_iff.mp (by rw [hcv]; rfl))
  · intro s hs hmem
    rw [← alookup_isSome_iff, relax_pred_lookup] at hmem
    by_cases hsP' : (alookup (ainsert processed vm dm) s).isSome
    · rw [if_pos hsP',
        alookup_eq_none.mpr (inv.no_start_pred s hs)] at hmem
      simp at hmem
    · rw [if_neg hsP'] at hmem
      have hsplit := fun h =>
        hsP' (alookup_isSome_iff.mpr (mem_keysOf_ainsert.mpr h))
      have hsP : s ∉ keysOf processed := fun h => hsplit (Or.inl h)
      have hsvm : s ≠ vm := fun h => hsplit (Or.inr h)
      rcases inv.starts_cover s hs with hP | ⟨cs, hlk, hcs⟩
      · exact hsP hP
      · rw [alookup_aremove, if_neg hsvm, hlk] at hmem
        rcases hov : offerMin dm (g vm) s with _ | m <;> rw [hov] at hmem
        · have hred : (alookup predecessors s).isSome = true := hmem
          rw [alookup_eq_none.mpr (inv.no_start_pred s hs)] at hred
          simp at hred
        · obtain ⟨w, hw, rfl⟩ := offerMin_mem hov
          have hw0 : 0 ≤ w := hn _ _ _ hw
          have hred : (if dm + w < cs then some vm
              else alookup predecessors s).isSome = true := hmem
          rw [if_neg (by omega : ¬dm + w < cs),
            alookup_eq_none.mpr (inv.no_start_pred s hs)] at hred
          simp at hred
  · intro x hx
    have hfroz : ∀ y ∈ keysOf (ainsert processed vm dm),
        alookup (relax_neighbors vm dm (ainsert processed vm dm) (g vm)
          (aremove current vm) predecessors).2 y =
        alookup predecessors y := by
      intro y hy
      rw [relax_pred_lookup, if_pos (alookup_isSome_iff.mpr hy)]
    have hlift : ∀ z ∈ keysOf processed,
        PredChain (relax_neighbors vm dm (ainsert processed vm dm) (g vm)
          (aremove current vm) predecessors).2 starts
          (keysOf (ainsert processed vm dm)) z := by
      intro z hz
      exact (inv.proc_chain z hz).mono
        (fun y hy => mem_keysOf_ainsert.mpr (Or.inl hy))
        (fun y hy => hfroz y (mem_keysOf_ainsert.mpr (Or.inl hy)))
    rcases mem_keysOf_ainsert.mp hx with hxP | rfl
    · exact hlift x hxP
    · by_cases hvs : x ∈ starts
      · refine PredChain.base (mem_keysOf_ainsert.mpr (Or.inr rfl)) ?_ hvs
        rw [hfroz x (mem_keysOf_ainsert.mpr (Or.inr rfl))]
        exact alookup_eq_none.mpr (inv.no_start_pred x hvs)
      · rcases inv.pred_cover x (mem_keysOf hmemC) with h | h
        · exact absurd h hvs
        · rw [← alookup_isSome_iff] at h
          rcases hu : alookup predecessors x with _ | u
          · rw [hu] at h
            simp at h
          · have huP : u ∈ keysOf processed := inv.pred_proc x u hu
            refine PredChain.step (mem_keysOf_ainsert.mpr (Or.inr rfl))
              ?_ (hlift u huP)
            rw [hfroz x (mem_keysOf_ainsert.mpr (Or.inr rfl)), hu]

theorem dijkstra_loop_post {g : S → List (S × Int)} {starts targets : List S}
    (hn : NonNegWeights g) :
    ∀ (fuel : Nat) (current processed : List (S × Int))
      (predecessors : List (S × S)) (dist : List (S × Int))
      (pred : List (S × S)) (reached : Option S),
      DijkstraInv g starts targets current processed predecessors →
      dijkstra_loop g targets fuel current processed predecessors =
        some (dist, pred, reached) →
      DijkstraPost g starts dist pred := by
  intro fuel
  induction fuel with
  | zero =>
      intro current processed predecessors dist pred reached inv hrun
      exact Option.noConfusion hrun
  | succ fuel ih =>
      intro current processed predecessors dist pred reached inv hrun
      rcases hfm : find_min_key_value_pair current with _ | ⟨vm, dm⟩
      · simp only [dijkstra_loop, hfm, Option.some.injEq, Prod.mk.injEq]
          at hrun
        obtain ⟨rfl, rfl, rfl⟩ := hrun
        exact ⟨inv.nodup_proc, inv.proc_shortest, inv.no_start_pred,
          inv.proc_chain⟩
      · by_cases hT : vm ∈ targets
        · simp only [dijkstra_loop, hfm, if_pos hT, Option.some.injEq,
            Prod.mk.injEq] at hrun
          obtain ⟨rfl, rfl, rfl⟩ := hrun
          have hmemC : (vm, dm) ∈ current := find_min_mem hfm
          have hvmP : vm ∉ keysOf processed :=
            fun h => inv.disj vm h (mem_keysOf hmemC)
          have hshort : ShortestFrom g starts vm dm :=
            extracted_shortest inv hn hfm
          have hlift : ∀ z ∈ keysOf processed,
              PredChain predecessors starts
                (keysOf (ainsert processed vm dm)) z := fun z hz =>
            (inv.proc_chain z hz).mono
              (fun y hy => mem_keysOf_ainsert.mpr (Or.inl hy))
              (fun y hy => rfl)
          refine ⟨nodup_keysOf_ainsert inv.nodup_proc, ?_,
            inv.no_start_pred, ?_⟩
          · intro v d hv
            rw [ainsert_of_not_mem hvmP] at hv
            rcases List.mem_append.mp hv with hvP | hveq
            · exact inv.proc_shortest v d hvP
            · obtain ⟨rfl, rfl⟩ : v = vm ∧ d = dm := by
                simpa [Prod.mk.injEq] using hveq
              exact hshort
          · intro x hx
            rcases mem_keysOf_ainsert.mp hx with hxP | rfl
            · exact hlift x hxP
            · by_cases hvs : x ∈ starts
              · exact PredChain.base (mem_keysOf_ainsert.mpr (Or.inr rfl))
                  (alookup_eq_none.mpr (inv.no_start_pred x hvs)) hvs
              · rcases inv.pred_cover x (mem_keysOf hmemC) with h | h
                · exact absurd h hvs
                · rw [← alookup_isSome_iff] at h
                  rcases hu : alookup predecessors x with _ | u
                  · rw [hu] at h
                    simp at h
                  · exact PredChain.step
                      (mem_keysOf_ainsert.mpr (Or.inr rfl)) hu
                      (hlift u (inv.pred_proc x u hu))
        · simp only [dijkstra_loop, hfm, if_neg hT] at hrun
          exact ih _ _ _ _ _ _ (dijkstra_step inv hn hfm hT) hrun

theorem dijkstra_loop_exit_lite {g : S → List (S × Int)} {targets : List S} :
    ∀ (fuel : Nat) (current processed : List (S × Int))
      (predecessors : List (S × S)) (dist : List (S × Int))
      (pred : List (S × S)) (reached : Option S),
      DijkstraInvLite targets current processed predecessors →
      dijkstra_loop g targets fuel current processed predecessors =
        some (dist, pred, reached) →
      (∀ t, reached = some t → t ∈ targets ∧
        (∃ d dist0, dist = dist0 ++ [(t, d)] ∧
          ∀ k ∈ keysOf dist0, k ∉ targets) ∧
        ∀ x v, alookup pred x = some v → v ≠ t) ∧
      (reached = none → ∀ k ∈ keysOf dist, k ∉ targets) := by
  intro fuel
  induction fuel with
  | zero =>
      intro current processed predecessors dist pred reached inv hrun
      exact Option.noConfusion hrun
  | succ fuel ih =>
      intro current processed predecessors dist pred reached inv hrun
      rcases hfm : find_min_key_value_pair current with _ | ⟨vm, dm⟩
      · simp only [dijkstra_loop, hfm, Option.some.injEq, Prod.mk.injEq]
          at hrun
        obtain ⟨rfl, rfl, rfl⟩ := hrun
        exact ⟨fun t ht => Option.noConfusion ht,
          fun _ => inv.proc_no_target⟩
      · by_cases hT : vm ∈ targets
        · simp only [dijkstra_loop, hfm, if_pos hT, Option.some.injEq,
            Prod.mk.injEq] at hrun
          obtain ⟨rfl, rfl, rfl⟩ := hrun
          have hmemC : (vm, dm) ∈ current := find_min_mem hfm
          have hvmP : vm ∉ keysOf processed :=
            fun h => inv.disj vm h (mem_keysOf hmemC)
          constructor
          · intro t ht
            obtain rfl : vm = t := (Option.some.injEq _ _).mp ht
            refine ⟨hT, ⟨dm, processed, ainsert_of_not_mem hvmP,
              inv.proc_no_target⟩, ?_⟩
            intro x v hx hveq
            exact hvmP (hveq ▸ inv.pred_proc x v hx)
          · intro ht
            exact Option.noConfusion ht
        · simp only [dijkstra_loop, hfm, if_neg hT] at hrun
          exact ih _ _ _ _ _ _
            (dijkstra_step_lite inv g hfm hT) hrun

theorem nodup_length_le_dedup {l m : List S} (hn : l.Nodup)
    (hsub : ∀ x ∈ l, x ∈ m) : l.length ≤ m.dedup.length := by
  have h3 : l.toFinset ⊆ m.toFinset := fun x hx =>
    List.mem_toFinset.mpr (hsub x (List.mem_toFinset.mp hx))
  calc l.length = l.toFinset.card := (List.toFinset_card_of_nodup hn).symm
    _ ≤ m.toFinset.card := Finset.card_le_card h3
    _ = m.dedup.length := List.card_toFinset m

theorem keysOf_ainsert_length {l : List (S × Int)} {k : S} {v : Int}
    (h : k ∉ keysOf l) :
    (keysOf (ainsert l k v)).length = (keysOf l).length + 1 := by
  rw [ainsert_of_not_mem h, keysOf, List.map_append, List.length_append]
  rfl

theorem dijkstra_loop_total {g : S → List (S × Int)} {targets : List S}
    {K : List S} (hK : ∀ u v w, (v, w) ∈ g u → v ∈ K) :
    ∀ (fuel : Nat) (current processed : List (S × Int))
      (predecessors : List (S × S)),
      DijkstraInvLite targets current processed predecessors →
      (∀ k ∈ keysOf current, k ∈ K) → (∀ k ∈ keysOf processed, k ∈ K) →
      K.dedup.length < fuel + (keysOf processed).length →
      ∃ res, dijkstra_loop g targets fuel current processed predecessors =
        some res := by
  intro fuel
  induction fuel with
  | zero =>
      intro current processed predecessors inv hC hP hlen
      have := nodup_length_le_dedup inv.nodup_proc hP
      omega
  | succ fuel ih =>
      intro current processed predecessors inv hC hP hlen
      rcases hfm : find_min_key_value_pair current with _ | ⟨vm, dm⟩
      · exact ⟨(processed, predecessors, none), by
          simp [dijkstra_loop, hfm]⟩
      · have hmemC : (vm, dm) ∈ current := find_min_mem hfm
        have hvmK : vm ∈ K := hC vm (mem_keysOf hmemC)
        have hvmP : vm ∉ keysOf processed :=
          fun h => inv.disj vm h (mem_keysOf hmemC)
        by_cases hT : vm ∈ targets
        · exact ⟨(ainsert processed vm dm, predecessors, some vm), by
            simp [dijkstra_loop, hfm, hT]⟩
        · have hCnew : ∀ k ∈ keysOf
              (relax_neighbors vm dm (ainsert processed vm dm) (g vm)
                (aremove current vm) predecessors).1, k ∈ K := by
            intro k hk
            rw [← alookup_isSome_iff, relax_current_lookup] at hk
            by_cases hkP' : (alookup (ainsert processed vm dm) k).isSome
            · rw [if_pos hkP', alookup_aremove] at hk
              by_cases hkvm : k = vm
              · rw [if_pos hkvm] at hk
                simp at hk
              · rw [if_neg hkvm] at hk
                exact hC k (alookup_isSome_iff.mp hk)
            · rw [if_neg hkP'] at hk
              rcases hcv : alookup (aremove current vm) k with _ | cd <;>
                rcases hov : offerMin dm (g vm) k with _ | m <;>
                  rw [hcv, hov] at hk
              · simp at hk
              · obtain ⟨w, hw, rfl⟩ := offerMin_mem hov
                exact hK vm k w hw
              · rw [alookup_aremove] at hcv
                by_cases hkvm : k = vm
                · rw [if_pos hkvm] at hcv
                  exact Option.noConfusion hcv
                · rw [if_neg hkvm] at hcv
                  exact hC k (alookup_isSome_iff.mp (by rw [hcv]; rfl))
              · rw [alookup_aremove] at hcv
                by_cases hkvm : k = vm
                · rw [if_pos hkvm] at hcv
                  exact Option.noConfusion hcv
                · rw [if_neg hkvm] at hcv
                  exact hC k (alookup_isSome_iff.mp (by rw [hcv]; rfl))
          have hPnew : ∀ k ∈ keysOf (ainsert processed vm dm), k ∈ K := by
            intro k hk
            rcases mem_keysOf_ainsert.mp hk with hkP | rfl
            · exact hP k hkP
            · exact hvmK
          obtain ⟨res, hres⟩ := ih _ _ _
            (dijkstra_step_lite inv g hfm hT) hCnew hPnew
            (by rw [keysOf_ainsert_length hvmP]; omega)
          exact ⟨res, by simp [dijkstra_loop, hfm, hT, hres]⟩

/-- Termination of the solver on a finite graph: when every edge target lies
in the finite vertex list K and every start vertex does as well, the fuel
one larger than the number of distinct vertices of K covers the whole run,
so the while loop of the Rust source terminates and the fuel hypothesis of
the run theorems is satisfiable on every finite graph. -/
theorem solve_dijkstra_total {S : Type} [DecidableEq S]
    (g : S → List (S × Int)) (starts targets : List S) (K : List S)
    (hK : ∀ u v w, (v, w) ∈ g u → v ∈ K)
    (hstarts : ∀ s ∈ starts, s ∈ K) :
    ∃ res, solve_dijkstra g starts targets (K.dedup.length + 1) =
      some res := by
  refine dijkstra_loop_total hK (K.dedup.length + 1) (seed_starts starts)
    [] [] (dijkstra_initial_lite targets starts) ?_ ?_ ?_
  · intro k hk
    rw [← alookup_isSome_iff, seed_lookup] at hk
    by_cases hm : k ∈ starts
    · exact hstarts k hm
    · rw [if_neg hm] at hk
      simp at hk
  · intro k hk
    simp [keysOf] at hk
  · simp [keysOf]

theorem exLine_nonneg : NonNegWeights exLine := by
  intro u v w h
  rcases u with _ | _ | u <;> simp [exLine] at h <;> omega

/-! Claims about the completed solver run (C1, C4, C5, C10). -/

/-- Claim C1: for every graph with non-negative edge weights and every
terminating run of the solver (the fuel stands for the termination of the
while loop, which holds on every finite graph), every vertex present in the
returned distance map is mapped to the true shortest-path distance from the
nearest start vertex. -/
theorem solve_dijkstra_distances_shortest {S : Type} [DecidableEq S]
    {g : S → List (S × Int)} {starts targets : List S} {fuel : Nat}
    {dist : List (S × Int)} {pred : List (S × S)} {reached : Option S}
    (hn : NonNegWeights g)
    (hrun : solve_dijkstra g starts targets fuel =
      some (dist, pred, reached)) :
    ∀ v d, alookup dist v = some d → ShortestFrom g starts v d :=
  fun v d h =>
    (dijkstra_loop_post hn fuel (seed_starts starts) [] [] dist pred
      reached (dijkstra_initial g starts targets) hrun).shortest v d
      (alookup_mem h)

/-- Witness for C1: on the line graph 0 to 1 to 2 with unit weights and start
vertex 0, the solver settles vertex 2 at distance 2, which is its true
shortest distance. -/
theorem solve_dijkstra_distances_shortest_witness :
    NonNegWeights exLine ∧
      solve_dijkstra exLine [0] [] 4 =
        some ([(0, 0), (1, 1), (2, 2)], [(1, 0), (2, 1)], none) ∧
      ShortestFrom exLine [0] 2 2 := by
  have hrun : solve_dijkstra exLine [0] [] 4 =
      some ([(0, 0), (1, 1), (2, 2)], [(1, 0), (2, 1)], none) := rfl
  exact ⟨exLine_nonneg, hrun,
    solve_dijkstra_distances_shortest exLine_nonneg hrun 2 2 rfl⟩

/-- Claim C4: for every graph with non-negative weights and every terminating
run, every distance in the returned map is non-negative, and for every edge
(u, v) with both endpoints in the returned map the recorded distances
satisfy the relaxation inequality. -/
theorem solve_dijkstra_monotone {S : Type} [DecidableEq S]
    {g : S → List (S × Int)} {starts targets : List S} {fuel : Nat}
    {dist : List (S × Int)} {pred : List (S × S)} {reached : Option S}
    (hn : NonNegWeights g)
    (hrun : solve_dijkstra g starts targets fuel =
      some (dist, pred, reached)) :
    (∀ v d, alookup dist v = some d → 0 ≤ d) ∧
      ∀ u v du dv w, alookup dist u = some du → alookup dist v = some dv →
        (v, w) ∈ g u → dv ≤ du + w := by
  have hpost := dijkstra_loop_post hn fuel (seed_starts starts) [] [] dist
    pred reached (dijkstra_initial g starts targets) hrun
  constructor
  · intro v d h
    exact (hpost.shortest v d (alookup_mem h)).nonneg hn
  · intro u v du dv w hu hv he
    exact ShortestFrom.triangle (hpost.shortest u du (alookup_mem hu))
      (hpost.shortest v dv (alookup_mem hv)) he

/-- Witness for C4: on the line graph, the settled distance of vertex 2 is
non-negative, and across the edge from 1 to 2 the distances satisfy the
relaxation inequality. -/
theorem solve_dijkstra_monotone_witness :
    NonNegWeights exLine ∧ (0 : Int) ≤ 2 ∧ (2 : Int) ≤ 1 + 1 := by
  have hrun : solve_dijkstra exLine [0] [] 4 =
      some ([(0, 0), (1, 1), (2, 2)], [(1, 0), (2, 1)], none) := rfl
  have h := solve_dijkstra_monotone exLine_nonneg hrun
  exact ⟨exLine_nonneg, h.1 2 2 rfl, h.2 1 2 1 2 1 rfl rfl (by decide)⟩

/-- Claim C5: when the extracted frontier minimum is a target it is recorded
as reached_target, its distance is the last entry of the returned distance
map, no earlier settled vertex is a target, and the loop stops without
relaxing that vertex, so no predecessor entry points to the reached target;
when the frontier empties without extracting a target, reached_target is
none and no settled vertex is a target. No assumption on the weights is
needed. -/
theorem solve_dijkstra_early_exit {S : Type} [DecidableEq S]
    {g : S → List (S × Int)} {starts targets : List S} {fuel : Nat}
    {dist : List (S × Int)} {pred : List (S × S)} {reached : Option S}
    (hrun : solve_dijkstra g starts targets fuel =
      some (dist, pred, reached)) :
    (∀ t, reached = some t → t ∈ targets ∧
      (∃ d dist0, dist = dist0 ++ [(t, d)] ∧
        ∀ k ∈ keysOf dist0, k ∉ targets) ∧
      ∀ x v, alookup pred x = some v → v ≠ t) ∧
    (reached = none → ∀ k ∈ keysOf dist, k ∉ targets) :=
  dijkstra_loop_exit_lite fuel (seed_starts starts) [] [] dist pred reached
    (dijkstra_initial_lite targets starts) hrun

/-- Witness for C5: on the line graph with target 2, the run stops the moment
vertex 2 is settled: 2 is reported as reached, its entry closes the distance
map, and no predecessor entry points to it (in particular the entry of key 2
points to 1, not to 2). -/
theorem solve_dijkstra_early_exit_witness :
    solve_dijkstra exLine [0] [2] 5 =
      some ([(0, 0), (1, 1), (2, 2)], [(1, 0), (2, 1)], some 2) ∧
    (2 : Nat) ∈ ([2] : List Nat) ∧
    (∃ d dist0,
      ([((0 : Nat), (0 : Int)), (1, 1), (2, 2)]) = dist0 ++ [(2, d)] ∧
      ∀ k ∈ keysOf dist0, k ∉ ([2] : List Nat)) ∧
    (1 : Nat) ≠ 2 := by
  have hrun : solve_dijkstra exLine [0] [2] 5 =
      some ([(0, 0), (1, 1), (2, 2)], [(1, 0), (2, 1)], some 2) := rfl
  have h := (solve_dijkstra_early_exit hrun).1 2 rfl
  exact ⟨hrun, h.1, h.2.1, h.2.2 2 1 rfl⟩

/-- Claim C10: for every graph with non-negative weights and every
terminating run, no start vertex appears as a key of the returned
predecessor map, and from every vertex of the returned distance map the
predecessor chain stays inside the distance map, is finite, and ends at a
start vertex that has no predecessor entry; hence the path-reconstruction
walk that follows predecessors until a vertex has none terminates at a
source. -/
theorem solve_dijkstra_pred_chains {S : Type} [DecidableEq S]
    {g : S → List (S × Int)} {starts targets : List S} {fuel : Nat}
    {dist : List (S × Int)} {pred : List (S × S)} {reached : Option S}
    (hn : NonNegWeights g)
    (hrun : solve_dijkstra g starts targets fuel =
      some (dist, pred, reached)) :
    (∀ s ∈ starts, s ∉ keysOf pred) ∧
      ∀ x ∈ keysOf dist, PredChain pred starts (keysOf dist) x := by
  have hpost := dijkstra_loop_post hn fuel (seed_starts starts) [] [] dist
    pred reached (dijkstra_initial g starts targets) hrun
  exact ⟨hpost.no_start_pred, hpost.chain⟩

/-- Witness for C10: on the line graph, the start vertex 0 has no
predecessor entry, and the chain from vertex 2 (2 to 1 to 0) ends at the
start vertex 0. -/
theorem solve_dijkstra_pred_chains_witness :
    NonNegWeights exLine ∧
      (0 : Nat) ∉ keysOf [((1 : Nat), (0 : Nat)), (2, 1)] ∧
      PredChain [((1 : Nat), (0 : Nat)), (2, 1)] [0]
        (keysOf [((0 : Nat), (0 : Int)), (1, 1), (2, 2)]) 2 := by
  have hrun : solve_dijkstra exLine [0] [] 4 =
      some ([(0, 0), (1, 1), (2, 2)], [(1, 0), (2, 1)], none) := rfl
  have h := solve_dijkstra_pred_chains exLine_nonneg hrun
  exact ⟨exLine_nonneg, h.1 0 (by decide), h.2 2 (by decide)⟩

end RustAlgo
